import Mathlib

/-
Verification development for the `frclib-commands` cooperative command
scheduler (`src/manager.rs`, `src/commands.rs`, `src/conditions.rs`).

The embedding models the scheduler state machine over explicit data:
* `Command` mirrors the `Command` enum restricted to the variants the
  development exercises: instrumented leaf commands (`Leaf.simple`, standing
  for `Command::Simple` / `Command::Custom` whose closures bump counters and
  append to a shared marker log, exactly as the crate's own test does),
  `Command::Wait`, `Command::Parallel` and `Command::Sequential` with leaf
  children.  `Named` / `Proxy` / `Const` / `ExtraRequirments` are pure
  wrappers not touched by any claim and are omitted.
* Rust `HashMap`s / `HashSet`s become association lists / lists without
  duplicates; `Vec<Option<Command>>` arenas become `List (Option Command)`.
* A Rust panic (`expect`, out-of-bounds `Vec` index, missing `HashMap` key
  under `Index`) is modelled by `Option`: `none` means the tick panics.
* `Instant::now()` becomes an explicit `now : Nat` supplied per tick, and
  `Duration` a `Nat`; side effects of user hooks become `Event` entries in a
  `World` log threaded through every lifecycle call.
-/

namespace FrcLib

/-- `SubsystemSUID = u64`; only equality on SUIDs matters to the scheduler. -/
abbrev SUID := Nat

/-- Observable effects of the instrumented leaf hooks (the analogue of the
`add_marker` calls in the crate's own test suite). -/
inductive Event where
  | initE (id : Nat)
  | periodicE (id : Nat)
  | endE (id : Nat) (interrupted : Bool)
deriving DecidableEq, Repr

/-- Which command id an event belongs to. -/
def eventId : Event → Nat
  | .initE i => i
  | .periodicE i => i
  | .endE i _ => i

/-- Chronological log of hook side effects. -/
abbrev World := List Event

/-- `CommandIndex` from `manager.rs`: a tagged handle into one of the three
slot arenas. -/
inductive CommandIndex where
  | defaultCommand (i : Nat)
  | command (i : Nat)
  | preservedCommand (i : Nat)
deriving DecidableEq, Repr

/-! ### Association-list and list-set helpers (model of FxHashMap / FxHashSet)

Iteration order of a Rust `HashMap` is arbitrary; the association list fixes
one concrete order.  All scenario conclusions below are insensitive to the
order (they count occurrences or look up single keys). -/

/-- `HashMap::get`. -/
def lookupA {ν : Type} (k : SUID) : List (SUID × ν) → Option ν
  | [] => none
  | p :: ps => if p.1 = k then some p.2 else lookupA k ps

/-- `HashMap::get` keyed by `CommandIndex`. -/
def lookupI {ν : Type} (k : CommandIndex) : List (CommandIndex × ν) → Option ν
  | [] => none
  | p :: ps => if p.1 = k then some p.2 else lookupI k ps

/-- `HashMap::insert`: replace the binding in place, else append. -/
def insertA {ν : Type} (k : SUID) (v : ν) : List (SUID × ν) → List (SUID × ν)
  | [] => [(k, v)]
  | p :: ps => if p.1 = k then (k, v) :: ps else p :: insertA k v ps

/-- `HashMap::insert` keyed by `CommandIndex`. -/
def insertI {ν : Type} (k : CommandIndex) (v : ν) : List (CommandIndex × ν) → List (CommandIndex × ν)
  | [] => [(k, v)]
  | p :: ps => if p.1 = k then (k, v) :: ps else p :: insertI k v ps

/-- `HashMap::remove`. -/
def eraseA {ν : Type} (k : SUID) : List (SUID × ν) → List (SUID × ν)
  | [] => []
  | p :: ps => if p.1 = k then ps else p :: eraseA k ps

/-- `HashMap::remove` keyed by `CommandIndex`. -/
def eraseI {ν : Type} (k : CommandIndex) : List (CommandIndex × ν) → List (CommandIndex × ν)
  | [] => []
  | p :: ps => if p.1 = k then ps else p :: eraseI k ps

/-- `HashSet::insert`. -/
def insertSet (i : CommandIndex) (l : List CommandIndex) : List CommandIndex :=
  if i ∈ l then l else l ++ [i]

/-- `HashSet::remove`. -/
def removeSet (i : CommandIndex) (l : List CommandIndex) : List CommandIndex :=
  l.filter (fun j => j ≠ i)

/-- `Vec::iter().position(Option::is_none)`. -/
def firstNonePos {α : Type} : List (Option α) → Option Nat
  | [] => none
  | none :: _ => some 0
  | some _ :: rest => (firstNonePos rest).map (· + 1)

/-- Number of occurrences of an index in a list. -/
def occCount (i : CommandIndex) : List CommandIndex → Nat
  | [] => 0
  | j :: js => (if j = i then 1 else 0) + occCount i js

/-- Number of events in a world satisfying a predicate. -/
def evCount (p : Event → Bool) : World → Nat
  | [] => 0
  | e :: es => (if p e then 1 else 0) + evCount p es

/-! ### Leaf commands -/

/-- Instrumented script for a `SimpleCommand` / boxed `Custom` command: every
hook logs an `Event` carrying `id`; `periodic` additionally bumps
`periodicCount`, and `is_finished` returns true once `periodicCount`
reaches `finishAfter` (never, when `finishAfter = none`).  `cancelIncoming`
models the object-level `CommandTrait::cancel_incoming` implementation. -/
structure SimpleCmd where
  id : Nat
  reqs : List SUID
  finishAfter : Option Nat
  cancelIncoming : Bool
  periodicCount : Nat
deriving DecidableEq, Repr

/-- The scripted `is_finished` value of a `SimpleCmd`. -/
def SimpleCmd.isFinishedVal (s : SimpleCmd) : Bool :=
  match s.finishAfter with
  | none => false
  | some n => n ≤ s.periodicCount

/-- Leaf commands: instrumented simple/custom commands and `WaitCommand`
(`start_instant : Option<Instant>`, `duration : Duration`). -/
inductive Leaf where
  | simple (s : SimpleCmd)
  | wait (startInstant : Option Nat) (duration : Nat)
deriving DecidableEq, Repr

/-- Leaf `init`: the simple script logs `initE`; `WaitCommand::init` records
the current instant. -/
def Leaf.init (now : Nat) : Leaf → World → Leaf × World
  | .simple s, w => (.simple s, w ++ [.initE s.id])
  | .wait _ d, _w => (.wait (some now) d, _w)

/-- Leaf `periodic`: the simple script logs `periodicE` and bumps its
counter; `WaitCommand::periodic` is a no-op. -/
def Leaf.periodic (_dt : Nat) : Leaf → World → Leaf × World
  | .simple s, w => (.simple { s with periodicCount := s.periodicCount + 1 }, w ++ [.periodicE s.id])
  | .wait st d, w => (.wait st d, w)

/-- Leaf `is_finished`; `WaitCommand::is_finished` panics (`expect`) when
`start_instant` is unset, else compares elapsed time with the duration. -/
def Leaf.isFinished (now : Nat) : Leaf → Option Bool
  | .simple s => some s.isFinishedVal
  | .wait st d =>
    match st with
    | none => none
    | some t => some (d ≤ now - t)

/-- Leaf `end`: the simple script logs `endE`; `WaitCommand::end` is a no-op. -/
def Leaf.endC (interrupted : Bool) : Leaf → World → Leaf × World
  | .simple s, w => (.simple s, w ++ [.endE s.id interrupted])
  | .wait st d, w => (.wait st d, w)

/-- Leaf `get_requirements`. -/
def Leaf.getRequirements : Leaf → List SUID
  | .simple s => s.reqs
  | .wait _ _ => []

/-- The object-level `cancel_incoming` of the leaf implementation (what a
`Box<dyn CommandTrait>` would answer if it were asked). -/
def Leaf.cancelIncoming : Leaf → Bool
  | .simple s => s.cancelIncoming
  | .wait _ _ => false

/-- Does this leaf log events under `id`? -/
def Leaf.mentionsL (id : Nat) : Leaf → Bool
  | .simple s => s.id == id
  | .wait _ _ => false

/-! ### Commands -/

/-- The `Command` enum, restricted to the variants exercised here.
`parallel` carries `commands`, the per-child `finished` flags, the
construction-time aggregated `requirements` and the `race` flag;
`sequential` carries `commands`, the `current` cursor and its aggregated
`requirements`. -/
inductive Command where
  | leaf (l : Leaf)
  | parallel (commands : List Leaf) (finished : List Bool) (requirements : List SUID) (race : Bool)
  | sequential (commands : List Leaf) (current : Nat) (requirements : List SUID)
deriving DecidableEq, Repr

/-- `ParallelCommand::init`: initialise every child in order. -/
def parInit (now : Nat) : List Leaf → World → List Leaf × World
  | [], w => ([], w)
  | c :: cs, w =>
    let cw := Leaf.init now c w
    let rest := parInit now cs cw.2
    (cw.1 :: rest.1, rest.2)

/-- `ParallelCommand::periodic`: for each not-yet-finished child run
`periodic`, poll `is_finished`, and on completion call the child's
`end(false)` and set its flag.  Indexing `finished[i]` past its length is a
panic (`none`). -/
def parPeriodic (dt now : Nat) : List Leaf → List Bool → World → Option (List Leaf × List Bool × World)
  | [], fins, w => some ([], fins, w)
  | _ :: _, [], _ => none
  | c :: cs, f :: fs, w =>
    if f then
      match parPeriodic dt now cs fs w with
      | none => none
      | some (cs1, fs1, w1) => some (c :: cs1, f :: fs1, w1)
    else
      let cw := Leaf.periodic dt c w
      match Leaf.isFinished now cw.1 with
      | none => none
      | some fin =>
        if fin then
          let ce := Leaf.endC false cw.1 cw.2
          match parPeriodic dt now cs fs ce.2 with
          | none => none
          | some (cs1, fs1, w1) => some (ce.1 :: cs1, true :: fs1, w1)
        else
          match parPeriodic dt now cs fs cw.2 with
          | none => none
          | some (cs1, fs1, w1) => some (cw.1 :: cs1, false :: fs1, w1)

/-- `ParallelCommand::end(true)`: end every not-yet-finished child with
`interrupted = true` and mark it finished. -/
def parEnd : List Leaf → List Bool → World → Option (List Leaf × List Bool × World)
  | [], fins, w => some ([], fins, w)
  | _ :: _, [], _ => none
  | c :: cs, f :: fs, w =>
    if f then
      match parEnd cs fs w with
      | none => none
      | some (cs1, fs1, w1) => some (c :: cs1, f :: fs1, w1)
    else
      let ce := Leaf.endC true c w
      match parEnd cs fs ce.2 with
      | none => none
      | some (cs1, fs1, w1) => some (ce.1 :: cs1, true :: fs1, w1)

/-- `SequentialCommand::periodic`: run the current child; when it reports
finished, end it (non-interrupted), advance the cursor and initialise the
next child if one exists. -/
def seqPeriodic (dt now : Nat) (cs : List Leaf) (cur : Nat) (w : World) :
    Option (List Leaf × Nat × World) :=
  if cs.isEmpty then some (cs, cur, w)
  else
    match cs.get? cur with
    | none => none
    | some c =>
      let cw := Leaf.periodic dt c w
      match Leaf.isFinished now cw.1 with
      | none => none
      | some fin =>
        if fin then
          let ce := Leaf.endC false cw.1 cw.2
          let cs2 := cs.set cur ce.1
          match cs2.get? (cur + 1) with
          | none => some (cs2, cur + 1, ce.2)
          | some nxt =>
            let ni := Leaf.init now nxt ce.2
            some (cs2.set (cur + 1) ni.1, cur + 1, ni.2)
        else some (cs.set cur cw.1, cur, cw.2)

/-- `SequentialCommand::end`: when interrupted, end only the current child
(if the cursor is in range). -/
def seqEnd (interrupted : Bool) (cs : List Leaf) (cur : Nat) (w : World) : List Leaf × World :=
  if interrupted then
    match cs.get? cur with
    | none => (cs, w)
    | some c =>
      let ce := Leaf.endC true c w
      (cs.set cur ce.1, ce.2)
  else (cs, w)

/-- `Command::init` dispatch. -/
def Command.init (now : Nat) : Command → World → Command × World
  | .leaf l, w =>
    let lw := Leaf.init now l w
    (.leaf lw.1, lw.2)
  | .parallel cs fins reqs race, w =>
    let cw := parInit now cs w
    (.parallel cw.1 fins reqs race, cw.2)
  | .sequential cs cur reqs, w =>
    match cs with
    | [] => (.sequential [] cur reqs, w)
    | c :: rest =>
      let cw := Leaf.init now c w
      (.sequential (cw.1 :: rest) 0 reqs, cw.2)

/-- `Command::periodic` dispatch. -/
def Command.periodic (dt now : Nat) : Command → World → Option (Command × World)
  | .leaf l, w =>
    let lw := Leaf.periodic dt l w
    some (.leaf lw.1, lw.2)
  | .parallel cs fins reqs race, w =>
    match parPeriodic dt now cs fins w with
    | none => none
    | some (cs1, fins1, w1) => some (.parallel cs1 fins1 reqs race, w1)
  | .sequential cs cur reqs, w =>
    match seqPeriodic dt now cs cur w with
    | none => none
    | some (cs1, cur1, w1) => some (.sequential cs1 cur1 reqs, w1)

/-- `Command::is_finished` dispatch: a parallel composite is finished when
any (race) / all (non-race) flags are set; a sequential composite when the
cursor has passed the end. -/
def Command.isFinished (now : Nat) : Command → Option Bool
  | .leaf l => Leaf.isFinished now l
  | .parallel _ fins _ race =>
    some (if race then fins.any (fun b => b) else fins.all (fun b => b))
  | .sequential cs cur _ => some (decide (cs.length ≤ cur))

/-- `Command::end` dispatch.  `ParallelCommand::end` acts only when
`interrupted` is true (ending still-running children); `end(false)` is a
no-op on a parallel composite. -/
def Command.endC (interrupted : Bool) : Command → World → Option (Command × World)
  | .leaf l, w =>
    let lw := Leaf.endC interrupted l w
    some (.leaf lw.1, lw.2)
  | .parallel cs fins reqs race, w =>
    if interrupted then
      match parEnd cs fins w with
      | none => none
      | some (cs1, fins1, w1) => some (.parallel cs1 fins1 reqs race, w1)
    else some (.parallel cs fins reqs race, w)
  | .sequential cs cur reqs, w =>
    let cw := seqEnd interrupted cs cur w
    some (.sequential cw.1 cur reqs, cw.2)

/-- `Command::get_requirements` dispatch (composites return the aggregate
set stored at construction). -/
def Command.getRequirements : Command → List SUID
  | .leaf l => Leaf.getRequirements l
  | .parallel _ _ reqs _ => reqs
  | .sequential _ _ reqs => reqs

/-- `CommandTrait::cancel_incoming` as seen through the `Command` enum: the
`impl CommandTrait for Command` block dispatches `init` / `periodic` /
`end` / `is_finished` / `get_requirements` / `get_name` but does NOT
override `cancel_incoming`, so the trait default (`false`) applies to every
variant; the wrapped object's own `cancel_incoming` (`Leaf.cancelIncoming`)
is never consulted by the scheduler. -/
def Command.cancelIncoming (_c : Command) : Bool := false

/-- Does this command (or any of its children) log events under `id`? -/
def Command.mentions (id : Nat) : Command → Bool
  | .leaf l => Leaf.mentionsL id l
  | .parallel cs _ _ _ => cs.any (Leaf.mentionsL id)
  | .sequential cs _ _ => cs.any (Leaf.mentionsL id)

/-- `Command::race_with` for two leaves: a racing parallel composite whose
aggregate requirements are the children's combined requirements. -/
def raceOf (a b : Leaf) : Command :=
  .parallel [a, b] [false, false] (Leaf.getRequirements a ++ Leaf.getRequirements b) true

/-! ### Conditions and conditional schedulers -/

/-- Syntax of a `Condition`: a base predicate is sampled from the
environment by id; `and c f` / `or c f` compose a condition with a fresh
predicate closure `f` (identified by its id), `negate` inverts. -/
inductive Cnd where
  | base (id : Nat)
  | and (c : Cnd) (f : Nat)
  | or (c : Cnd) (f : Nat)
  | negate (c : Cnd)
deriving DecidableEq, Repr

/-- Evaluate a condition against an environment, returning its boolean value
and the ids of the predicate closures evaluated, in evaluation order.
`and` is the Rust `&&` (short-circuit: `f` is skipped when the left side is
false); `or` is the Rust `|` of `conditions.rs` line 78 (non-short-circuit
bit-or: `f` is always evaluated). -/
def Cnd.eval (env : Nat → Bool) : Cnd → Bool × List Nat
  | .base i => (env i, [i])
  | .and c f =>
    let r := c.eval env
    if r.1 then (env f, r.2 ++ [f]) else (false, r.2)
  | .or c f =>
    let r := c.eval env
    (r.1 || env f, r.2 ++ [f])
  | .negate c =>
    let r := c.eval env
    (!r.1, r.2)

/-- A `ConditionalScheduler` as built by `Condition::on_true`: the wrapping
closure holds one bit of history (`last_poll`) around the inner condition;
`command_slot` / `idx_slot` as in `conditions.rs`. -/
structure CondScheduler where
  lastPoll : Bool
  inner : Cnd
  command_slot : Option Command
  idx_slot : Option CommandIndex
deriving DecidableEq, Repr

/-- `Condition::on_true`: preserve `cmd` and fire on the rising edge. -/
def onTrue (c : Cnd) (cmd : Command) : CondScheduler :=
  { lastPoll := false, inner := c, command_slot := some cmd, idx_slot := none }

/-- `ConditionalScheduler::exchange`: record the preserved index and take the
held command; taking twice is a panic (`expect`). -/
def CondScheduler.exchange (s : CondScheduler) (idx : CommandIndex) :
    Option (CondScheduler × Command) :=
  match s.command_slot with
  | none => none
  | some c => some ({ s with idx_slot := some idx, command_slot := none }, c)

/-- `ConditionalScheduler::poll`: sample the edge-detecting condition (which
replaces the history bit on every poll) and yield the preserved index iff
the rising edge fired. -/
def CondScheduler.poll (env : Nat → Bool) (s : CondScheduler) :
    CondScheduler × Option CommandIndex :=
  let v := (s.inner.eval env).1
  let fired := !s.lastPoll && v
  let s1 := { s with lastPoll := v }
  if fired then (s1, s1.idx_slot) else (s1, none)

/-! ### The command manager -/

/-- `CommandManager` state (the subsystem periodic callbacks are external
side effects and are not modelled; the phase-2 default-owner insertion loop
is). -/
structure CommandManager where
  commands : List (Option Command)
  default_commands : List (Option Command)
  preserved_commands : List (Option Command)
  interrupt_state : List (CommandIndex × Bool)
  subsystem_to_default : List (SUID × CommandIndex)
  requirements : List (SUID × CommandIndex)
  initialized_commands : List CommandIndex
  orphaned_commands : List CommandIndex
  cond_schedulers : List CondScheduler
deriving DecidableEq, Repr

/-- `CommandManager::new`. -/
def CommandManager.new : CommandManager :=
  { commands := [], default_commands := [], preserved_commands := [],
    interrupt_state := [], subsystem_to_default := [], requirements := [],
    initialized_commands := [], orphaned_commands := [], cond_schedulers := [] }

/-- Read an arena slot.  `none` = index out of the arena's bounds (a panic
where `run_commands` indexes directly); `some none` = vacant slot. -/
def CommandManager.arenaGet (m : CommandManager) : CommandIndex → Option (Option Command)
  | .command i => m.commands.get? i
  | .defaultCommand i => m.default_commands.get? i
  | .preservedCommand i => m.preserved_commands.get? i

/-- Write an arena slot (callers only write indices they have read). -/
def CommandManager.arenaSet (m : CommandManager) (index : CommandIndex) (v : Option Command) :
    CommandManager :=
  match index with
  | .command i => { m with commands := m.commands.set i v }
  | .defaultCommand i => { m with default_commands := m.default_commands.set i v }
  | .preservedCommand i => { m with preserved_commands := m.preserved_commands.set i v }

/-- `CommandManager::get_command`. -/
def CommandManager.get_command (m : CommandManager) (index : CommandIndex) : Option Command :=
  match m.arenaGet index with
  | none => none
  | some o => o

/-- `CommandManager::register_subsystem` (minus the unmodelled periodic
callback): push the default-command slot, record the SUID mapping and seed
`interrupt_state`; `none` models the already-registered error. -/
def CommandManager.register_subsystem (m : CommandManager) (suid : SUID)
    (default_command : Option Command) : Option CommandManager :=
  match lookupA suid m.subsystem_to_default with
  | some _ => none
  | none =>
    let idx := m.default_commands.length
    some { m with
      default_commands := m.default_commands ++ [default_command],
      subsystem_to_default := insertA suid (.defaultCommand idx) m.subsystem_to_default,
      interrupt_state := insertI (.defaultCommand idx) false m.interrupt_state }

/-- `CommandManager::add_command`: reuse the first vacant ordinary slot or
push a new one, seeding `interrupt_state[idx] = false`. -/
def CommandManager.add_command (m : CommandManager) (command : Command) :
    CommandManager × CommandIndex :=
  match firstNonePos m.commands with
  | some index =>
    ({ m with commands := m.commands.set index (some command),
              interrupt_state := insertI (.command index) false m.interrupt_state },
     .command index)
  | none =>
    ({ m with commands := m.commands ++ [some command],
              interrupt_state := insertI (.command m.commands.length) false m.interrupt_state },
     .command m.commands.length)

/-- The owner-scan of `inner_schedule`: walk the requirement list; a live
owner whose `cancel_incoming()` (through the `Command` enum) is true aborts
the scan with `can_cancel = false`; otherwise live owners are collected
into the `to_cancel` set. -/
def gatherCancel (m : CommandManager) : List SUID → List CommandIndex → Bool × List CommandIndex
  | [], acc => (true, acc)
  | r :: rs, acc =>
    match lookupA r m.requirements with
    | none => gatherCancel m rs acc
    | some owner =>
      match m.get_command owner with
      | none => gatherCancel m rs acc
      | some cmd =>
        if cmd.cancelIncoming then (false, acc)
        else gatherCancel m rs (insertSet owner acc)

/-- `CommandManager::inner_schedule`: empty-requirement commands join
`orphaned_commands`; otherwise, when every conflicting owner accepts, mark
the gathered owners interrupted, take every requirement entry and reset the
new index's interrupt flag.  The `expect` on a missing slot is a panic. -/
def CommandManager.inner_schedule (m : CommandManager) (index : CommandIndex) :
    Option CommandManager :=
  match m.get_command index with
  | none => none
  | some cmd =>
    let req := cmd.getRequirements
    if req.isEmpty then
      some { m with orphaned_commands := insertSet index m.orphaned_commands }
    else
      let gc := gatherCancel m req []
      if gc.1 then
        let is1 := gc.2.foldl (fun is o => insertI o true is) m.interrupt_state
        let reqs1 := req.foldl (fun rq r => insertA r index rq) m.requirements
        some { m with interrupt_state := insertI index false is1, requirements := reqs1 }
      else some m

/-- `CommandManager::schedule` (the direct entry point). -/
def CommandManager.schedule (m : CommandManager) (command : Command) : Option CommandManager :=
  let mi := m.add_command command
  mi.1.inner_schedule mi.2

/-- `CommandManager::remove_command`: drop bookkeeping, null the slot iff it
is an ordinary `Command(_)` slot, and remove every requirement entry keyed
by one of the removed command's requirement SUIDs. -/
def CommandManager.remove_command (m : CommandManager) (command_idx : CommandIndex) :
    CommandManager :=
  let m1 := { m with initialized_commands := removeSet command_idx m.initialized_commands,
                     interrupt_state := eraseI command_idx m.interrupt_state }
  match m1.get_command command_idx with
  | none => m1
  | some command =>
    let req := command.getRequirements
    let m2 :=
      match command_idx with
      | .command idx => { m1 with commands := m1.commands.set idx none }
      | _ => m1
    let m3 := { m2 with orphaned_commands := removeSet command_idx m2.orphaned_commands }
    { m3 with requirements := req.foldl (fun rq r => eraseA r rq) m3.requirements }

/-- `CommandManager::add_cond_scheduler`, verbatim from the source: the
vacancy scan runs over `commands` (the ordinary arena), but the resulting
index is used to write `preserved_commands[idx]` — out of that arena's
bounds this is a panic (`none`). -/
def CommandManager.add_cond_scheduler (m : CommandManager) (scheduler : CondScheduler) :
    Option CommandManager :=
  match firstNonePos m.commands with
  | some idx =>
    let index := CommandIndex.preservedCommand idx
    let m1 := { m with interrupt_state := insertI index false m.interrupt_state }
    match scheduler.exchange index with
    | none => none
    | some (sch1, cmd) =>
      if idx < m1.preserved_commands.length then
        some { m1 with preserved_commands := m1.preserved_commands.set idx (some cmd),
                       cond_schedulers := m1.cond_schedulers ++ [sch1] }
      else none
  | none =>
    let index := CommandIndex.preservedCommand m.preserved_commands.length
    let m1 := { m with interrupt_state := insertI index false m.interrupt_state }
    match scheduler.exchange index with
    | none => none
    | some (sch1, cmd) =>
      some { m1 with preserved_commands := m1.preserved_commands ++ [some cmd],
                     cond_schedulers := m1.cond_schedulers ++ [sch1] }

/-- Phase 1, `update`: drain the queued commands through
`add_command` + `inner_schedule`, then the queued conditional schedulers
through `add_cond_scheduler`. -/
def CommandManager.update (m : CommandManager) (cmdQueue : List Command)
    (condQueue : List CondScheduler) : Option CommandManager :=
  match cmdQueue.foldlM CommandManager.schedule m with
  | none => none
  | some m1 => condQueue.foldlM CommandManager.add_cond_scheduler m1

/-- Phase 2, `run_subsystems` (modelled part): for every registered SUID
with no entry in `requirements`, insert the mapping to its default command. -/
def CommandManager.run_subsystems (m : CommandManager) : CommandManager :=
  let reqs1 :=
    m.subsystem_to_default.foldl
      (fun rq p =>
        match lookupA p.1 rq with
        | some _ => rq
        | none => insertA p.1 p.2 rq)
      m.requirements
  { m with requirements := reqs1 }

/-- Poll every conditional scheduler in order, collecting the indices whose
edge fired. -/
def pollAll (env : Nat → Bool) : List CondScheduler → List CondScheduler × List CommandIndex
  | [] => ([], [])
  | s :: ss =>
    let pr := CondScheduler.poll env s
    let rest := pollAll env ss
    (pr.1 :: rest.1,
     match pr.2 with
     | some i => i :: rest.2
     | none => rest.2)

/-- Phase 3, `run_cond_schedulers`: poll in registration order, then submit
each fired preserved index through `inner_schedule`. -/
def CommandManager.run_cond_schedulers (m : CommandManager) (env : Nat → Bool) :
    Option CommandManager :=
  let pr := pollAll env m.cond_schedulers
  let m1 := { m with cond_schedulers := pr.1 }
  pr.2.foldlM CommandManager.inner_schedule m1

/-- Accumulator of the phase-4 loop: manager, marker world, `to_remove`. -/
structure Phase4St where
  m : CommandManager
  w : World
  tr : List CommandIndex
deriving DecidableEq, Repr

/-- The `if !initialized.contains(index) { command.init(); initialized.insert }`
step of the phase-4 loop: yields the (possibly initialised) command, the
extended world and the manager with the updated `initialized_commands`. -/
def visitInitStep (now : Nat) (acc : Phase4St) (index : CommandIndex) (command : Command) :
    Command × World × CommandManager :=
  if index ∈ acc.m.initialized_commands then (command, acc.w, acc.m)
  else
    let iw := command.init now acc.w
    (iw.1, iw.2,
     { acc.m with initialized_commands := insertSet index acc.m.initialized_commands })

/-- One iteration of the phase-4 loop of `run_commands`: direct arena
indexing (out of bounds = panic), skip vacant slots, `interrupt_state[index]`
under `Index` (missing key = panic); on the interrupt flag call `end(true)`
and enqueue for reaping; otherwise `init` on first visit, `periodic` with a
zero delta, and on `is_finished` call `end(false)` and enqueue for reaping. -/
def visitOne (now : Nat) (acc : Phase4St) (index : CommandIndex) : Option Phase4St :=
  match acc.m.arenaGet index with
  | none => none
  | some none => some acc
  | some (some command) =>
    match lookupI index acc.m.interrupt_state with
    | none => none
    | some flag =>
      if flag then
        match command.endC true acc.w with
        | none => none
        | some (c1, w1) =>
          some { m := acc.m.arenaSet index (some c1), w := w1, tr := acc.tr ++ [index] }
      else
        let st1 := visitInitStep now acc index command
        match st1.1.periodic 0 now st1.2.1 with
        | none => none
        | some (c2, w2) =>
          match c2.isFinished now with
          | none => none
          | some fin =>
            if fin then
              match c2.endC false w2 with
              | none => none
              | some (c3, w3) =>
                some { m := st1.2.2.arenaSet index (some c3), w := w3, tr := acc.tr ++ [index] }
            else
              some { m := st1.2.2.arenaSet index (some c2), w := w2, tr := acc.tr }

/-- Fold `visitOne` over the collected active list. -/
def processList (now : Nat) (acc : Phase4St) : List CommandIndex → Option Phase4St
  | [] => some acc
  | i :: rest =>
    match visitOne now acc i with
    | none => none
    | some acc1 => processList now acc1 rest

/-- The active list of phase 4: `requirements.values()` (one entry per SUID)
extended with `orphaned_commands`. -/
def CommandManager.activeList (m : CommandManager) : List CommandIndex :=
  m.requirements.map Prod.snd ++ m.orphaned_commands

/-- Phase 4 + 5, `run_commands`: visit the active list, then reap every
enqueued index through `remove_command`. -/
def CommandManager.run_commands (m : CommandManager) (now : Nat) (w : World) :
    Option (CommandManager × World) :=
  match processList now { m := m, w := w, tr := [] } m.activeList with
  | none => none
  | some acc => some (acc.tr.foldl CommandManager.remove_command acc.m, acc.w)

/-- `CommandManager::run`: one tick — drain queues, insert default owners,
poll conditions, run the active set.  `env` samples the base predicates,
`now` is this tick's instant, and the queues model the thread-local
staging area drained by this tick. -/
def CommandManager.run (m : CommandManager) (env : Nat → Bool) (now : Nat)
    (cmdQueue : List Command) (condQueue : List CondScheduler) (w : World) :
    Option (CommandManager × World) :=
  match m.update cmdQueue condQueue with
  | none => none
  | some m1 =>
    let m2 := m1.run_subsystems
    match m2.run_cond_schedulers env with
    | none => none
    | some m3 => m3.run_commands now w

/-! ### Concrete scenarios

Small builders and the concrete runs the claim theorems below evaluate.
`envF` / `envT` are constant-false / constant-true base-predicate
environments. -/

/-- An instrumented leaf command record. -/
def mkS (id : Nat) (reqs : List SUID) (finishAfter : Option Nat) (cancel : Bool) : SimpleCmd :=
  { id := id, reqs := reqs, finishAfter := finishAfter, cancelIncoming := cancel,
    periodicCount := 0 }

/-- An instrumented leaf command. -/
def mkC (id : Nat) (reqs : List SUID) (finishAfter : Option Nat) (cancel : Bool) : Command :=
  .leaf (.simple (mkS id reqs finishAfter cancel))

def envF : Nat → Bool := fun _ => false

def envT : Nat → Bool := fun _ => true

/-- Is an event an `endE`? -/
def isEndEv : Event → Bool
  | .endE _ _ => true
  | _ => false

/-- Chain a tick onto a possibly-panicked run. -/
def andTick (r : Option (CommandManager × World)) (env : Nat → Bool) (now : Nat)
    (cmdQueue : List Command) (condQueue : List CondScheduler) :
    Option (CommandManager × World) :=
  match r with
  | none => none
  | some (m, w) => m.run env now cmdQueue condQueue w

/-- A manager with one registered subsystem carrying a default command. -/
def withDefault (suid : SUID) (d : Command) : CommandManager :=
  match CommandManager.new.register_subsystem suid (some d) with
  | some m => m
  | none => CommandManager.new

/-- C1 scenario: one command owning the two subsystems 5 and 6, never
finishing, scheduled and ticked once. -/
def c1tick : Option (CommandManager × World) :=
  CommandManager.new.run envF 0 [mkC 1 [5, 6] none false] [] []

/-- C2 scenario: `long.race_with(wait_for(100))` where `long` (id 1) never
finishes; tick at instants 0 and 150. -/
def c2race : Command := raceOf (.simple (mkS 1 [] none false)) (.wait none 100)

def c2t2 : Option (CommandManager × World) :=
  andTick (CommandManager.new.run envF 0 [c2race] [] []) envF 150 [] []

/-- C3 scenario: subsystem 5 with default command `D` (id 7); after one idle
tick, command `X` (id 1, requires 5, finishes after one periodic) displaces
the default; two more ticks. -/
def c3t2 : Option (CommandManager × World) :=
  andTick ((withDefault 5 (mkC 7 [] none false)).run envF 0 [] [] []) envF 1
    [mkC 1 [5] (some 1) false] []

def c3t3 : Option (CommandManager × World) := andTick c3t2 envF 2 [] []

/-- C4 scenario: one command owning subsystems 5 and 6 that reports finished
after its first periodic, scheduled and ticked once. -/
def c4tick : Option (CommandManager × World) :=
  CommandManager.new.run envF 0 [mkC 1 [5, 6] (some 1) false] [] []

/-- C5 scenario: incumbent `A` (id 1, requires 5) whose object-level
`cancel_incoming` returns true; `B` (id 2, requires 5) is submitted on the
next tick. -/
def c5t2 : Option (CommandManager × World) :=
  andTick (CommandManager.new.run envF 0 [mkC 1 [5] none true] [] []) envF 1
    [mkC 2 [5] none false] []

/-- C6 scenario: subsystem 5 whose default command (id 7) finishes after one
periodic; two idle ticks. -/
def c6t1 : Option (CommandManager × World) :=
  (withDefault 5 (mkC 7 [] (some 1) false)).run envF 0 [] [] []

def c6t2 : Option (CommandManager × World) := andTick c6t1 envF 1 [] []

/-- C7 scenario: `cond.on_true(P)` where `P` (id 3, no requirements)
finishes after one periodic; condition samples true, true, false, true over
four ticks. -/
def c7sched : CondScheduler := onTrue (.base 0) (mkC 3 [] (some 1) false)

def c7t1 : Option (CommandManager × World) :=
  CommandManager.new.run envT 0 [] [c7sched] []

def c7t2 : Option (CommandManager × World) := andTick c7t1 envT 1 [] []

def c7t3 : Option (CommandManager × World) := andTick c7t2 envF 2 [] []

def c7t4 : Option (CommandManager × World) := andTick c7t3 envT 3 [] []

/-- C8 scenario: an ordinary command (id 1) finishes and is reaped on tick
1, leaving `commands = [none]`; tick 2 drains a conditional scheduler. -/
def c8t1 : Option (CommandManager × World) :=
  CommandManager.new.run envF 0 [mkC 1 [] (some 1) false] [] []

def c8sched : CondScheduler := onTrue (.base 0) (mkC 9 [] none false)

def c8t2 : Option (CommandManager × World) := andTick c8t1 envF 1 [] [c8sched]

/-- C9 environment: predicate 0 samples true, predicate 1 samples false. -/
def envC9 : Nat → Bool := fun n => n == 0

/-- C10 scenario (full displacement): `X` (id 1) and `Y` (id 2) both require
subsystem 5 and are drained from the same tick's queue in that order; three
ticks. -/
def c10t3 : Option (CommandManager × World) :=
  andTick (andTick (CommandManager.new.run envF 0 [mkC 1 [5] none false, mkC 2 [5] none false]
    [] []) envF 1 [] []) envF 2 [] []

/-- C10 scenario (partial displacement): `X` (id 1) requires 5 and 6, `Y`
(id 2) requires only 5; one tick. -/
def c10pt1 : Option (CommandManager × World) :=
  CommandManager.new.run envF 0 [mkC 1 [5, 6] none false, mkC 2 [5] none false] [] []

/-- Witness state for the C1 theorem: the post-admission state with one
command owning subsystems 5 and 6. -/
def c1wCmd : SimpleCmd := mkS 1 [5, 6] none false

def c1wSt : CommandManager :=
  { CommandManager.new with
    commands := [some (.leaf (.simple c1wCmd))],
    interrupt_state := [(.command 0, false)],
    requirements := [(5, .command 0), (6, .command 0)] }

def c1wRes : CommandManager × World :=
  match c1wSt.run_commands 0 [] with
  | some r => r
  | none => (CommandManager.new, [])

/-- Witness state for the C4 theorem: as `c1wSt` but the command reports
finished immediately. -/
def c4wCmd : SimpleCmd := mkS 1 [5, 6] (some 0) false

def c4wSt : CommandManager :=
  { CommandManager.new with
    commands := [some (.leaf (.simple c4wCmd))],
    interrupt_state := [(.command 0, false)],
    requirements := [(5, .command 0), (6, .command 0)] }

def c4wRes : CommandManager × World :=
  match c4wSt.run_commands 0 [] with
  | some r => r
  | none => (CommandManager.new, [])

/-- Witness state for the C3 theorem: a default command owns subsystem 5 and
an incoming command requiring 5 sits in ordinary slot 0. -/
def c3wSt : CommandManager :=
  { CommandManager.new with
    commands := [some (mkC 1 [5] none false)],
    default_commands := [some (mkC 7 [] none false)],
    subsystem_to_default := [(5, .defaultCommand 0)],
    requirements := [(5, .defaultCommand 0)],
    interrupt_state := [(.defaultCommand 0, false), (.command 0, false)] }

/-! ### Supporting lemmas: association lists and counters -/

theorem lookupI_insertI_self {ν : Type} (k : CommandIndex) (v : ν) (l : List (CommandIndex × ν)) :
    lookupI k (insertI k v l) = some v := by
  induction l with
  | nil => simp [insertI, lookupI]
  | cons p ps ih =>
    by_cases h : p.1 = k
    · simp [insertI, h, lookupI]
    · simp [insertI, h, lookupI, ih]

theorem lookupI_insertI_ne {ν : Type} (k k' : CommandIndex) (hne : k ≠ k') (v : ν)
    (l : List (CommandIndex × ν)) : lookupI k' (insertI k v l) = lookupI k' l := by
  induction l with
  | nil => simp [insertI, lookupI, hne]
  | cons p ps ih =>
    by_cases h : p.1 = k
    · simp [insertI, h, lookupI, hne]
    · by_cases h2 : p.1 = k'
      · simp [insertI, h, lookupI, h2, Ne.symm hne]
      · simp [insertI, h, lookupI, h2, ih]

theorem lookupA_insertA_self {ν : Type} (k : SUID) (v : ν) (l : List (SUID × ν)) :
    lookupA k (insertA k v l) = some v := by
  induction l with
  | nil => simp [insertA, lookupA]
  | cons p ps ih =>
    by_cases h : p.1 = k
    · simp [insertA, h, lookupA]
    · simp [insertA, h, lookupA, ih]

theorem lookupA_insertA_ne {ν : Type} (k k' : SUID) (hne : k ≠ k') (v : ν)
    (l : List (SUID × ν)) : lookupA k' (insertA k v l) = lookupA k' l := by
  induction l with
  | nil => simp [insertA, lookupA, hne]
  | cons p ps ih =>
    by_cases h : p.1 = k
    · simp [insertA, h, lookupA, hne]
    · by_cases h2 : p.1 = k'
      · simp [insertA, h, lookupA, h2, Ne.symm hne]
      · simp [insertA, h, lookupA, h2, ih]

theorem occCount_append (i : CommandIndex) (l1 l2 : List CommandIndex) :
    occCount i (l1 ++ l2) = occCount i l1 + occCount i l2 := by
  induction l1 with
  | nil => simp [occCount]
  | cons j js ih => simp [occCount, ih]; omega

theorem occCount_eq_zero_iff (i : CommandIndex) (l : List CommandIndex) :
    occCount i l = 0 ↔ ∀ j ∈ l, j ≠ i := by
  induction l with
  | nil => simp [occCount]
  | cons j js ih =>
    by_cases h : j = i
    · simp [occCount, h]
    · simp [occCount, h, ih]

theorem evCount_append (p : Event → Bool) (w1 w2 : World) :
    evCount p (w1 ++ w2) = evCount p w1 + evCount p w2 := by
  induction w1 with
  | nil => simp [evCount]
  | cons e es ih => simp [evCount, ih]; omega

theorem evCount_zero_of_none (p : Event → Bool) (Δ : World) (h : ∀ e ∈ Δ, p e = false) :
    evCount p Δ = 0 := by
  induction Δ with
  | nil => rfl
  | cons e es ih =>
    have h1 := h e (by simp)
    simp [evCount, h1]
    exact ih (fun e' he' => h e' (by simp [he']))

/-! ### Supporting lemmas: arena reads and writes -/

theorem arenaSet_interrupt (m : CommandManager) (j : CommandIndex) (v : Option Command) :
    (m.arenaSet j v).interrupt_state = m.interrupt_state := by
  cases j <;> rfl

theorem arenaSet_orphaned (m : CommandManager) (j : CommandIndex) (v : Option Command) :
    (m.arenaSet j v).orphaned_commands = m.orphaned_commands := by
  cases j <;> rfl

theorem arenaGet_arenaSet_ne (m : CommandManager) (i j : CommandIndex) (hne : i ≠ j)
    (v : Option Command) : (m.arenaSet j v).arenaGet i = m.arenaGet i := by
  cases i with
  | command a =>
    cases j with
    | command b =>
      have hba : b ≠ a := fun hh => hne (by rw [hh])
      simp [CommandManager.arenaSet, CommandManager.arenaGet, List.getElem?_set_ne hba]
    | defaultCommand b => rfl
    | preservedCommand b => rfl
  | defaultCommand a =>
    cases j with
    | command b => rfl
    | defaultCommand b =>
      have hba : b ≠ a := fun hh => hne (by rw [hh])
      simp [CommandManager.arenaSet, CommandManager.arenaGet, List.getElem?_set_ne hba]
    | preservedCommand b => rfl
  | preservedCommand a =>
    cases j with
    | command b => rfl
    | defaultCommand b => rfl
    | preservedCommand b =>
      have hba : b ≠ a := fun hh => hne (by rw [hh])
      simp [CommandManager.arenaSet, CommandManager.arenaGet, List.getElem?_set_ne hba]

theorem lt_length_of_get?_eq_some {α : Type} (l : List α) (n : Nat) (x : α)
    (h : l.get? n = some x) : n < l.length := by
  by_contra hge
  rw [List.get?_eq_none.mpr (Nat.le_of_not_lt hge)] at h
  cases h

theorem arenaGet_arenaSet_self (m : CommandManager) (i : CommandIndex) (o v : Option Command)
    (h : m.arenaGet i = some o) : (m.arenaSet i v).arenaGet i = some v := by
  cases i with
  | command a =>
    exact List.get?_set_eq_of_lt _ (lt_length_of_get?_eq_some _ _ _ h)
  | defaultCommand a =>
    exact List.get?_set_eq_of_lt _ (lt_length_of_get?_eq_some _ _ _ h)
  | preservedCommand a =>
    exact List.get?_set_eq_of_lt _ (lt_length_of_get?_eq_some _ _ _ h)

/-! ### Supporting lemmas: lifecycle calls preserve a command's id footprint
and only emit events under ids the command mentions -/

theorem leafInit_ok (now : Nat) (l : Leaf) (w : World) :
    (∀ id, ((Leaf.init now l w).1).mentionsL id = l.mentionsL id) ∧
    ∃ Δ, (Leaf.init now l w).2 = w ++ Δ ∧ ∀ e ∈ Δ, l.mentionsL (eventId e) = true := by
  cases l with
  | simple s =>
    refine ⟨fun id => rfl, [Event.initE s.id], rfl, ?_⟩
    intro e he
    simp at he
    subst he
    simp [Leaf.mentionsL, eventId]
  | wait st d => exact ⟨fun id => rfl, [], by simp [Leaf.init], by simp⟩

theorem leafPeriodic_ok (dt : Nat) (l : Leaf) (w : World) :
    (∀ id, ((Leaf.periodic dt l w).1).mentionsL id = l.mentionsL id) ∧
    ∃ Δ, (Leaf.periodic dt l w).2 = w ++ Δ ∧ ∀ e ∈ Δ, l.mentionsL (eventId e) = true := by
  cases l with
  | simple s =>
    refine ⟨fun id => rfl, [Event.periodicE s.id], rfl, ?_⟩
    intro e he
    simp at he
    subst he
    simp [Leaf.mentionsL, eventId]
  | wait st d => exact ⟨fun id => rfl, [], by simp [Leaf.periodic], by simp⟩

theorem leafEnd_ok (b : Bool) (l : Leaf) (w : World) :
    (∀ id, ((Leaf.endC b l w).1).mentionsL id = l.mentionsL id) ∧
    ∃ Δ, (Leaf.endC b l w).2 = w ++ Δ ∧ ∀ e ∈ Δ, l.mentionsL (eventId e) = true := by
  cases l with
  | simple s =>
    refine ⟨fun id => rfl, [Event.endE s.id b], rfl, ?_⟩
    intro e he
    simp at he
    subst he
    simp [Leaf.mentionsL, eventId]
  | wait st d => exact ⟨fun id => rfl, [], by simp [Leaf.endC], by simp⟩

theorem parInit_ok (now : Nat) : ∀ (cs : List Leaf) (w : World),
    (∀ id, ((parInit now cs w).1).any (Leaf.mentionsL id) = cs.any (Leaf.mentionsL id)) ∧
    ∃ Δ, (parInit now cs w).2 = w ++ Δ ∧ ∀ e ∈ Δ, cs.any (Leaf.mentionsL (eventId e)) = true := by
  intro cs
  induction cs with
  | nil => exact fun w => ⟨fun id => rfl, [], by simp [parInit], by simp⟩
  | cons c cs ih =>
    intro w
    obtain ⟨hm1, Δ1, hw1, he1⟩ := leafInit_ok now c w
    obtain ⟨hm2, Δ2, hw2, he2⟩ := ih (Leaf.init now c w).2
    constructor
    · intro id
      simp only [parInit, List.any_cons, hm1, hm2]
    · refine ⟨Δ1 ++ Δ2, ?_, ?_⟩
      · show (parInit now cs (Leaf.init now c w).2).2 = w ++ (Δ1 ++ Δ2)
        rw [hw2, hw1, List.append_assoc]
      · intro e he
        rcases List.mem_append.mp he with h | h
        · simp [List.any_cons, he1 e h]
        · simp [List.any_cons, he2 e h]

theorem parPeriodic_ok (dt now : Nat) : ∀ (cs : List Leaf) (fs : List Bool) (w : World)
    (cs' : List Leaf) (fs' : List Bool) (w' : World),
    parPeriodic dt now cs fs w = some (cs', fs', w') →
    (∀ id, cs'.any (Leaf.mentionsL id) = cs.any (Leaf.mentionsL id)) ∧
    ∃ Δ, w' = w ++ Δ ∧ ∀ e ∈ Δ, cs.any (Leaf.mentionsL (eventId e)) = true := by
  intro cs
  induction cs with
  | nil =>
    intro fs w cs' fs' w' h
    simp only [parPeriodic, Option.some.injEq, Prod.mk.injEq] at h
    obtain ⟨h1, h2, h3⟩ := h
    subst h1; subst h3
    exact ⟨fun id => rfl, [], by simp, by simp⟩
  | cons c cs ih =>
    intro fs w cs' fs' w' h
    cases fs with
    | nil => simp [parPeriodic] at h
    | cons f fs =>
      simp only [parPeriodic] at h
      split at h
      · -- finished child: skipped
        split at h
        · cases h
        · rename_i cs1 fs1 w1 hrec
          simp only [Option.some.injEq, Prod.mk.injEq] at h
          obtain ⟨h1, h2, h3⟩ := h
          subst h1; subst h3
          obtain ⟨hm, Δ, hw, he⟩ := ih fs w cs1 fs1 w1 hrec
          refine ⟨fun id => by simp [List.any_cons, hm id], Δ, hw, ?_⟩
          intro e hee
          simp [List.any_cons, he e hee]
      · -- running child: periodic, poll is_finished
        obtain ⟨hmp, Δp, hwp, hep⟩ := leafPeriodic_ok dt c w
        split at h
        · cases h
        · rename_i fin hfin
          split at h
          · -- child finished: end(false), flag set
            obtain ⟨hme, Δe, hwe, hee⟩ :=
              leafEnd_ok false (Leaf.periodic dt c w).1 (Leaf.periodic dt c w).2
            split at h
            · cases h
            · rename_i cs1 fs1 w1 hrec
              simp only [Option.some.injEq, Prod.mk.injEq] at h
              obtain ⟨h1, h2, h3⟩ := h
              subst h1; subst h3
              obtain ⟨hm, Δ, hw, he⟩ := ih fs _ cs1 fs1 w1 hrec
              constructor
              · intro id
                simp [List.any_cons, hm id, hme id, hmp id]
              · refine ⟨Δp ++ (Δe ++ Δ), ?_, ?_⟩
                · rw [hw, hwe, hwp]
                  simp [List.append_assoc]
                · intro e hmem
                  rcases List.mem_append.mp hmem with hh | hh
                  · simp [List.any_cons, hep e hh]
                  · rcases List.mem_append.mp hh with hh2 | hh2
                    · have := hee e hh2
                      rw [hmp (eventId e)] at this
                      simp [List.any_cons, this]
                    · simp [List.any_cons, he e hh2]
          · -- child still running
            split at h
            · cases h
            · rename_i cs1 fs1 w1 hrec
              simp only [Option.some.injEq, Prod.mk.injEq] at h
              obtain ⟨h1, h2, h3⟩ := h
              subst h1; subst h3
              obtain ⟨hm, Δ, hw, he⟩ := ih fs _ cs1 fs1 w1 hrec
              constructor
              · intro id
                simp [List.any_cons, hm id, hmp id]
              · refine ⟨Δp ++ Δ, ?_, ?_⟩
                · rw [hw, hwp]
                  simp [List.append_assoc]
                · intro e hmem
                  rcases List.mem_append.mp hmem with hh | hh
                  · simp [List.any_cons, hep e hh]
                  · simp [List.any_cons, he e hh]

theorem parEnd_ok : ∀ (cs : List Leaf) (fs : List Bool) (w : World)
    (cs' : List Leaf) (fs' : List Bool) (w' : World),
    parEnd cs fs w = some (cs', fs', w') →
    (∀ id, cs'.any (Leaf.mentionsL id) = cs.any (Leaf.mentionsL id)) ∧
    ∃ Δ, w' = w ++ Δ ∧ ∀ e ∈ Δ, cs.any (Leaf.mentionsL (eventId e)) = true := by
  intro cs
  induction cs with
  | nil =>
    intro fs w cs' fs' w' h
    simp only [parEnd, Option.some.injEq, Prod.mk.injEq] at h
    obtain ⟨h1, h2, h3⟩ := h
    subst h1; subst h3
    exact ⟨fun id => rfl, [], by simp, by simp⟩
  | cons c cs ih =>
    intro fs w cs' fs' w' h
    cases fs with
    | nil => simp [parEnd] at h
    | cons f fs =>
      simp only [parEnd] at h
      split at h
      · split at h
        · cases h
        · rename_i cs1 fs1 w1 hrec
          simp only [Option.some.injEq, Prod.mk.injEq] at h
          obtain ⟨h1, h2, h3⟩ := h
          subst h1; subst h3
          obtain ⟨hm, Δ, hw, he⟩ := ih fs w cs1 fs1 w1 hrec
          refine ⟨fun id => by simp [List.any_cons, hm id], Δ, hw, ?_⟩
          intro e hee
          simp [List.any_cons, he e hee]
      · obtain ⟨hme, Δe, hwe, hee⟩ := leafEnd_ok true c w
        split at h
        · cases h
        · rename_i cs1 fs1 w1 hrec
          simp only [Option.some.injEq, Prod.mk.injEq] at h
          obtain ⟨h1, h2, h3⟩ := h
          subst h1; subst h3
          obtain ⟨hm, Δ, hw, he⟩ := ih fs _ cs1 fs1 w1 hrec
          constructor
          · intro id
            simp [List.any_cons, hm id, hme id]
          · refine ⟨Δe ++ Δ, ?_, ?_⟩
            · rw [hw, hwe]
              simp [List.append_assoc]
            · intro e hmem
              rcases List.mem_append.mp hmem with hh | hh
              · simp [List.any_cons, hee e hh]
              · simp [List.any_cons, he e hh]

theorem any_of_get (cs : List Leaf) (k : Nat) (c : Leaf) (hget : cs.get? k = some c)
    (id : Nat) (h : c.mentionsL id = true) : cs.any (Leaf.mentionsL id) = true := by
  induction cs generalizing k with
  | nil => cases hget
  | cons x xs ih =>
    cases k with
    | zero =>
      rw [List.get?_cons_zero] at hget
      injection hget with hx
      subst hx
      rw [List.any_cons, h, Bool.true_or]
    | succ k =>
      rw [List.get?_cons_succ] at hget
      rw [List.any_cons, ih k hget, Bool.or_true]

theorem any_set_eq (cs : List Leaf) (k : Nat) (c c' : Leaf)
    (hget : cs.get? k = some c) (hm : ∀ id, c'.mentionsL id = c.mentionsL id) (id : Nat) :
    (cs.set k c').any (Leaf.mentionsL id) = cs.any (Leaf.mentionsL id) := by
  induction cs generalizing k with
  | nil => cases hget
  | cons x xs ih =>
    cases k with
    | zero =>
      rw [List.get?_cons_zero] at hget
      injection hget with hx
      subst hx
      simp only [List.set, List.any_cons, hm id]
    | succ k =>
      rw [List.get?_cons_succ] at hget
      simp only [List.set, List.any_cons, ih k hget]

theorem seqPeriodic_ok (dt now : Nat) (cs : List Leaf) (cur : Nat) (w : World)
    (cs' : List Leaf) (cur' : Nat) (w' : World)
    (h : seqPeriodic dt now cs cur w = some (cs', cur', w')) :
    (∀ id, cs'.any (Leaf.mentionsL id) = cs.any (Leaf.mentionsL id)) ∧
    ∃ Δ, w' = w ++ Δ ∧ ∀ e ∈ Δ, cs.any (Leaf.mentionsL (eventId e)) = true := by
  simp only [seqPeriodic] at h
  split at h
  · simp only [Option.some.injEq, Prod.mk.injEq] at h
    obtain ⟨h1, h2, h3⟩ := h
    subst h1; subst h3
    exact ⟨fun id => rfl, [], by simp, by simp⟩
  · split at h
    · cases h
    · rename_i c hget
      obtain ⟨hmp, Δp, hwp, hep⟩ := leafPeriodic_ok dt c w
      split at h
      · cases h
      · rename_i fin hfin
        split at h
        · -- current child finished
          obtain ⟨hme, Δe, hwe, hee⟩ :=
            leafEnd_ok false (Leaf.periodic dt c w).1 (Leaf.periodic dt c w).2
          have hany2 : ∀ id,
              ((cs.set cur (Leaf.endC false (Leaf.periodic dt c w).1 (Leaf.periodic dt c w).2).1).any
                (Leaf.mentionsL id)) = cs.any (Leaf.mentionsL id) := by
            intro id
            exact any_set_eq cs cur c _ hget (fun id2 => by rw [hme id2, hmp id2]) id
          split at h
          · -- no next child
            simp only [Option.some.injEq, Prod.mk.injEq] at h
            obtain ⟨h1, h2, h3⟩ := h
            subst h1; subst h3
            constructor
            · exact hany2
            · refine ⟨Δp ++ Δe, ?_, ?_⟩
              · rw [hwe, hwp]
                simp [List.append_assoc]
              · intro e hmem
                rcases List.mem_append.mp hmem with hh | hh
                · exact any_of_get cs cur c hget _ (hep e hh)
                · have := hee e hh
                  rw [hmp (eventId e)] at this
                  exact any_of_get cs cur c hget _ this
          · -- next child initialised
            rename_i nxt hnxt
            obtain ⟨hmi, Δi, hwi, hei⟩ :=
              leafInit_ok now nxt (Leaf.endC false (Leaf.periodic dt c w).1 (Leaf.periodic dt c w).2).2
            simp only [Option.some.injEq, Prod.mk.injEq] at h
            obtain ⟨h1, h2, h3⟩ := h
            subst h1; subst h3
            constructor
            · intro id
              rw [any_set_eq _ (cur + 1) nxt _ hnxt (fun id2 => hmi id2) id]
              exact hany2 id
            · refine ⟨Δp ++ (Δe ++ Δi), ?_, ?_⟩
              · rw [hwi, hwe, hwp]
                simp [List.append_assoc]
              · intro e hmem
                rcases List.mem_append.mp hmem with hh | hh
                · exact any_of_get cs cur c hget _ (hep e hh)
                · rcases List.mem_append.mp hh with hh2 | hh2
                  · have := hee e hh2
                    rw [hmp (eventId e)] at this
                    exact any_of_get cs cur c hget _ this
                  · have := hei e hh2
                    have h3 := any_of_get _ (cur + 1) nxt hnxt _ this
                    rw [hany2 (eventId e)] at h3
                    exact h3
        · -- current child still running
          simp only [Option.some.injEq, Prod.mk.injEq] at h
          obtain ⟨h1, h2, h3⟩ := h
          subst h1; subst h3
          constructor
          · intro id
            exact any_set_eq cs cur c _ hget (fun id2 => hmp id2) id
          · refine ⟨Δp, hwp, ?_⟩
            intro e hmem
            exact any_of_get cs cur c hget _ (hep e hmem)

theorem seqEnd_ok (b : Bool) (cs : List Leaf) (cur : Nat) (w : World) :
    (∀ id, ((seqEnd b cs cur w).1).any (Leaf.mentionsL id) = cs.any (Leaf.mentionsL id)) ∧
    ∃ Δ, (seqEnd b cs cur w).2 = w ++ Δ ∧ ∀ e ∈ Δ, cs.any (Leaf.mentionsL (eventId e)) = true := by
  by_cases hb : b
  · simp only [seqEnd, hb, if_true]
    cases hget : cs.get? cur with
    | none => exact ⟨fun id => rfl, [], by simp, by simp⟩
    | some c =>
      obtain ⟨hme, Δe, hwe, hee⟩ := leafEnd_ok true c w
      constructor
      · intro id
        exact any_set_eq cs cur c _ hget (fun id2 => hme id2) id
      · refine ⟨Δe, hwe, ?_⟩
        intro e hmem
        exact any_of_get cs cur c hget _ (hee e hmem)
  · simp only [seqEnd, hb, if_false]
    exact ⟨fun id => rfl, [], by simp, by simp⟩

theorem commandInit_ok (now : Nat) (c : Command) (w : World) :
    (∀ id, ((Command.init now c w).1).mentions id = c.mentions id) ∧
    ∃ Δ, (Command.init now c w).2 = w ++ Δ ∧ ∀ e ∈ Δ, c.mentions (eventId e) = true := by
  cases c with
  | leaf l =>
    obtain ⟨hm, Δ, hw, he⟩ := leafInit_ok now l w
    exact ⟨fun id => hm id, Δ, hw, he⟩
  | parallel cs fins reqs race =>
    obtain ⟨hm, Δ, hw, he⟩ := parInit_ok now cs w
    exact ⟨fun id => hm id, Δ, hw, he⟩
  | sequential cs cur reqs =>
    cases cs with
    | nil => exact ⟨fun id => rfl, [], by simp [Command.init], by simp⟩
    | cons c rest =>
      obtain ⟨hm, Δ, hw, he⟩ := leafInit_ok now c w
      constructor
      · intro id
        simp [Command.init, Command.mentions, List.any_cons, hm id]
      · refine ⟨Δ, by simp [Command.init, hw], ?_⟩
        intro e hmem
        simp [Command.mentions, List.any_cons, he e hmem]

theorem commandPeriodic_ok (dt now : Nat) (c : Command) (w : World) (c' : Command) (w' : World)
    (h : Command.periodic dt now c w = some (c', w')) :
    (∀ id, c'.mentions id = c.mentions id) ∧
    ∃ Δ, w' = w ++ Δ ∧ ∀ e ∈ Δ, c.mentions (eventId e) = true := by
  cases c with
  | leaf l =>
    simp only [Command.periodic, Option.some.injEq, Prod.mk.injEq] at h
    obtain ⟨h1, h2⟩ := h
    subst h1; subst h2
    obtain ⟨hm, Δ, hw, he⟩ := leafPeriodic_ok dt l w
    exact ⟨fun id => hm id, Δ, hw, he⟩
  | parallel cs fins reqs race =>
    simp only [Command.periodic] at h
    split at h
    · cases h
    · rename_i cs1 fins1 w1 hrec
      simp only [Option.some.injEq, Prod.mk.injEq] at h
      obtain ⟨h1, h2⟩ := h
      subst h1; subst h2
      obtain ⟨hm, Δ, hw, he⟩ := parPeriodic_ok dt now cs fins w cs1 fins1 w1 hrec
      exact ⟨fun id => hm id, Δ, hw, he⟩
  | sequential cs cur reqs =>
    simp only [Command.periodic] at h
    split at h
    · cases h
    · rename_i cs1 cur1 w1 hrec
      simp only [Option.some.injEq, Prod.mk.injEq] at h
      obtain ⟨h1, h2⟩ := h
      subst h1; subst h2
      obtain ⟨hm, Δ, hw, he⟩ := seqPeriodic_ok dt now cs cur w cs1 cur1 w1 hrec
      exact ⟨fun id => hm id, Δ, hw, he⟩

theorem commandEnd_ok (b : Bool) (c : Command) (w : World) (c' : Command) (w' : World)
    (h : Command.endC b c w = some (c', w')) :
    (∀ id, c'.mentions id = c.mentions id) ∧
    ∃ Δ, w' = w ++ Δ ∧ ∀ e ∈ Δ, c.mentions (eventId e) = true := by
  cases c with
  | leaf l =>
    simp only [Command.endC, Option.some.injEq, Prod.mk.injEq] at h
    obtain ⟨h1, h2⟩ := h
    subst h1; subst h2
    obtain ⟨hm, Δ, hw, he⟩ := leafEnd_ok b l w
    exact ⟨fun id => hm id, Δ, hw, he⟩
  | parallel cs fins reqs race =>
    simp only [Command.endC] at h
    split at h
    · split at h
      · cases h
      · rename_i cs1 fins1 w1 hrec
        simp only [Option.some.injEq, Prod.mk.injEq] at h
        obtain ⟨h1, h2⟩ := h
        subst h1; subst h2
        obtain ⟨hm, Δ, hw, he⟩ := parEnd_ok cs fins w cs1 fins1 w1 hrec
        exact ⟨fun id => hm id, Δ, hw, he⟩
    · simp only [Option.some.injEq, Prod.mk.injEq] at h
      obtain ⟨h1, h2⟩ := h
      subst h1; subst h2
      exact ⟨fun id => rfl, [], by simp, by simp⟩
  | sequential cs cur reqs =>
    simp only [Command.endC, Option.some.injEq, Prod.mk.injEq] at h
    obtain ⟨h1, h2⟩ := h
    subst h1; subst h2
    obtain ⟨hm, Δ, hw, he⟩ := seqEnd_ok b cs cur w
    exact ⟨fun id => hm id, Δ, hw, he⟩

/-! ### Supporting lemmas: the phase-4 visit -/

theorem visitInitStep_ok (now : Nat) (acc : Phase4St) (index : CommandIndex) (command : Command) :
    (visitInitStep now acc index command).2.2.interrupt_state = acc.m.interrupt_state ∧
    (∀ i, (visitInitStep now acc index command).2.2.arenaGet i = acc.m.arenaGet i) ∧
    (∀ id, ((visitInitStep now acc index command).1).mentions id = command.mentions id) ∧
    ∃ Δ, (visitInitStep now acc index command).2.1 = acc.w ++ Δ ∧
      ∀ e ∈ Δ, command.mentions (eventId e) = true := by
  simp only [visitInitStep]
  split
  · exact ⟨rfl, fun i => rfl, fun id => rfl, [], by simp, by simp⟩
  · obtain ⟨hm, Δ, hw, he⟩ := commandInit_ok now command acc.w
    exact ⟨rfl, fun i => by cases i <;> rfl, hm, Δ, hw, he⟩

theorem visitOne_props (now : Nat) (acc acc' : Phase4St) (j : CommandIndex)
    (h : visitOne now acc j = some acc') :
    acc'.m.interrupt_state = acc.m.interrupt_state ∧
    (∀ i, i ≠ j → acc'.m.arenaGet i = acc.m.arenaGet i) ∧
    (∀ i, i ≠ j → occCount i acc'.tr = occCount i acc.tr) ∧
    (∀ c, acc.m.arenaGet j = some (some c) →
      (∃ c', acc'.m.arenaGet j = some (some c') ∧ ∀ id, c'.mentions id = c.mentions id) ∧
      (∃ Δ, acc'.w = acc.w ++ Δ ∧ ∀ e ∈ Δ, c.mentions (eventId e) = true)) ∧
    acc.m.arenaGet j ≠ none ∧
    (acc.m.arenaGet j = some none → acc' = acc) := by
  simp only [visitOne] at h
  split at h
  · cases h
  · rename_i hget
    injection h with h
    subst h
    refine ⟨rfl, fun i _ => rfl, fun i _ => rfl, ?_, by simp [hget], fun _ => rfl⟩
    intro c hc
    rw [hget] at hc
    cases hc
  · rename_i command hget
    split at h
    · cases h
    · rename_i flag hflag
      split at h
      · -- interrupt branch: end(true) and enqueue
        split at h
        · cases h
        · rename_i c1 w1 hend
          injection h with h
          subst h
          obtain ⟨hm, Δ, hw, he⟩ := commandEnd_ok true command acc.w c1 w1 hend
          refine ⟨arenaSet_interrupt _ _ _, fun i hi => arenaGet_arenaSet_ne _ _ _ hi _, ?_, ?_,
            by simp [hget], fun hc => absurd hc (by simp [hget])⟩
          · intro i hi
            simp [occCount_append, occCount, Ne.symm hi]
          · intro c hc
            rw [hget] at hc
            injection hc with hc
            injection hc with hc
            subst hc
            refine ⟨⟨c1, arenaGet_arenaSet_self _ _ _ _ hget, hm⟩, Δ, hw, he⟩
      · -- run branch
        obtain ⟨hsi, hsa, hsm, Δ0, hw0, he0⟩ := visitInitStep_ok now acc j command
        split at h
        · cases h
        · rename_i c2 w2 hper
          split at h
          · cases h
          · rename_i fin hfinv
            obtain ⟨hm2, Δ2, hw2, he2⟩ :=
              commandPeriodic_ok 0 now (visitInitStep now acc j command).1
                (visitInitStep now acc j command).2.1 c2 w2 hper
            split at h
            · -- finished: end(false)
              split at h
              · cases h
              · rename_i c3 w3 hend3
                injection h with h
                subst h
                obtain ⟨hm3, Δ3, hw3, he3⟩ := commandEnd_ok false c2 w2 c3 w3 hend3
                refine ⟨?_, ?_, ?_, ?_, by simp [hget], fun hc => absurd hc (by simp [hget])⟩
                · rw [arenaSet_interrupt, hsi]
                · intro i hi
                  rw [arenaGet_arenaSet_ne _ _ _ hi, hsa i]
                · intro i hi
                  simp [occCount_append, occCount, Ne.symm hi]
                · intro c hc
                  rw [hget] at hc
                  injection hc with hc
                  injection hc with hc
                  subst hc
                  constructor
                  · refine ⟨c3, ?_, ?_⟩
                    · exact arenaGet_arenaSet_self _ _ _ _ (by rw [hsa j]; exact hget)
                    · intro id
                      rw [hm3 id, hm2 id, hsm id]
                  · refine ⟨Δ0 ++ (Δ2 ++ Δ3), ?_, ?_⟩
                    · show w3 = acc.w ++ (Δ0 ++ (Δ2 ++ Δ3))
                      rw [hw3, hw2, hw0]
                      simp [List.append_assoc]
                    · intro e hmem
                      rcases List.mem_append.mp hmem with hh | hh
                      · exact he0 e hh
                      · rcases List.mem_append.mp hh with hh2 | hh2
                        · have := he2 e hh2
                          rw [hsm (eventId e)] at this
                          exact this
                        · have := he3 e hh2
                          rw [hm2 (eventId e), hsm (eventId e)] at this
                          exact this
            · -- still running
              injection h with h
              subst h
              refine ⟨?_, ?_, ?_, ?_, by simp [hget], fun hc => absurd hc (by simp [hget])⟩
              · rw [arenaSet_interrupt, hsi]
              · intro i hi
                rw [arenaGet_arenaSet_ne _ _ _ hi, hsa i]
              · intro i hi
                rfl
              · intro c hc
                rw [hget] at hc
                injection hc with hc
                injection hc with hc
                subst hc
                constructor
                · refine ⟨c2, ?_, ?_⟩
                  · exact arenaGet_arenaSet_self _ _ _ _ (by rw [hsa j]; exact hget)
                  · intro id
                    rw [hm2 id, hsm id]
                · refine ⟨Δ0 ++ Δ2, ?_, ?_⟩
                  · show w2 = acc.w ++ (Δ0 ++ Δ2)
                    rw [hw2, hw0, List.append_assoc]
                  · intro e hmem
                    rcases List.mem_append.mp hmem with hh | hh
                    · exact he0 e hh
                    · have := he2 e hh
                      rw [hsm (eventId e)] at this
                      exact this

/-- Visiting an instrumented simple command whose interrupt flag is false:
`periodic` bumps its counter once; it is enqueued for reaping (and logs one
`end(false)`) exactly when the bumped script reports finished. -/
theorem visitOne_at_simple (now : Nat) (acc : Phase4St) (i : CommandIndex) (s : SimpleCmd)
    (hslot : acc.m.arenaGet i = some (some (.leaf (.simple s))))
    (hflag : lookupI i acc.m.interrupt_state = some false) :
    ∃ acc', visitOne now acc i = some acc' ∧
      acc'.m.arenaGet i =
        some (some (.leaf (.simple { s with periodicCount := s.periodicCount + 1 }))) ∧
      acc'.m.interrupt_state = acc.m.interrupt_state ∧
      occCount i acc'.tr =
        occCount i acc.tr +
          (if SimpleCmd.isFinishedVal { s with periodicCount := s.periodicCount + 1 } then 1
           else 0) ∧
      (∀ j, j ≠ i → acc'.m.arenaGet j = acc.m.arenaGet j) ∧
      ∃ Δ, acc'.w = acc.w ++ Δ ∧
        evCount (fun e => e == Event.endE s.id false) Δ =
          (if SimpleCmd.isFinishedVal { s with periodicCount := s.periodicCount + 1 } then 1
           else 0) := by
  obtain ⟨w0, m0, hstep, Δ0, hΔ0w, hΔ0c, hint0, harena0⟩ :
      ∃ w0 m0, visitInitStep now acc i (.leaf (.simple s)) = (.leaf (.simple s), w0, m0) ∧
        ∃ Δ0, w0 = acc.w ++ Δ0 ∧ evCount (fun e => e == Event.endE s.id false) Δ0 = 0 ∧
          m0.interrupt_state = acc.m.interrupt_state ∧ ∀ j, m0.arenaGet j = acc.m.arenaGet j := by
    by_cases hmem : i ∈ acc.m.initialized_commands
    · exact ⟨acc.w, acc.m, by simp [visitInitStep, hmem], [], by simp, rfl, rfl, fun j => rfl⟩
    · refine ⟨acc.w ++ [Event.initE s.id],
        { acc.m with initialized_commands := insertSet i acc.m.initialized_commands },
        by simp [visitInitStep, hmem, Command.init, Leaf.init], [Event.initE s.id], rfl,
        by simp [evCount], rfl, fun j => by cases j <;> rfl⟩
  by_cases hfin : SimpleCmd.isFinishedVal { s with periodicCount := s.periodicCount + 1 } = true
  · refine ⟨{ m := m0.arenaSet i
                (some (.leaf (.simple { s with periodicCount := s.periodicCount + 1 }))),
              w := w0 ++ [Event.periodicE s.id, Event.endE s.id false],
              tr := acc.tr ++ [i] }, ?_, ?_, ?_, ?_, ?_, ?_⟩
    · simp [visitOne, hslot, hflag, hstep, Command.periodic, Leaf.periodic, Command.isFinished,
        Leaf.isFinished, hfin, Command.endC, Leaf.endC]
    · exact arenaGet_arenaSet_self _ _ _ _ (by rw [harena0 i]; exact hslot)
    · rw [arenaSet_interrupt]; exact hint0
    · simp [occCount_append, occCount, hfin]
    · intro j hj
      rw [arenaGet_arenaSet_ne _ _ _ hj, harena0 j]
    · refine ⟨Δ0 ++ [Event.periodicE s.id, Event.endE s.id false], ?_, ?_⟩
      · show w0 ++ [Event.periodicE s.id, Event.endE s.id false] = _
        rw [hΔ0w]
        simp [List.append_assoc]
      · simp [evCount_append, hΔ0c, evCount, hfin, beq_iff_eq]
  · refine ⟨{ m := m0.arenaSet i
                (some (.leaf (.simple { s with periodicCount := s.periodicCount + 1 }))),
              w := w0 ++ [Event.periodicE s.id],
              tr := acc.tr }, ?_, ?_, ?_, ?_, ?_, ?_⟩
    · simp [visitOne, hslot, hflag, hstep, Command.periodic, Leaf.periodic, Command.isFinished,
        Leaf.isFinished, hfin, Command.endC, Leaf.endC]
    · exact arenaGet_arenaSet_self _ _ _ _ (by rw [harena0 i]; exact hslot)
    · rw [arenaSet_interrupt]; exact hint0
    · simp [hfin]
    · intro j hj
      rw [arenaGet_arenaSet_ne _ _ _ hj, harena0 j]
    · refine ⟨Δ0 ++ [Event.periodicE s.id], ?_, ?_⟩
      · show w0 ++ [Event.periodicE s.id] = _
        rw [hΔ0w]
        simp [List.append_assoc]
      · simp [evCount_append, hΔ0c, evCount, hfin, beq_iff_eq]

/-- Processing the phase-4 visit list: an instrumented simple command with a
false interrupt flag has `periodic` run once per occurrence of its index in
the list, and is enqueued for reaping once per occurrence exactly when its
script reports finished (`b` is that constant verdict). -/
theorem processList_slot (now : Nat) (i : CommandIndex) (b : Bool) :
    ∀ (L : List CommandIndex) (acc acc' : Phase4St) (s : SimpleCmd),
      processList now acc L = some acc' →
      acc.m.arenaGet i = some (some (.leaf (.simple s))) →
      lookupI i acc.m.interrupt_state = some false →
      (∀ k, SimpleCmd.isFinishedVal { s with periodicCount := s.periodicCount + (k + 1) } = b) →
      acc'.m.arenaGet i =
        some (some (.leaf (.simple { s with periodicCount := s.periodicCount + occCount i L }))) ∧
      occCount i acc'.tr = occCount i acc.tr + (if b then occCount i L else 0) := by
  intro L
  induction L with
  | nil =>
    intro acc acc' s h hslot hflag hb
    simp only [processList] at h
    injection h with h
    subst h
    constructor
    · simpa [occCount] using hslot
    · cases b <;> simp [occCount]
  | cons x xs ih =>
    intro acc acc' s h hslot hflag hb
    simp only [processList] at h
    split at h
    · cases h
    · rename_i acc1 hvisit
      by_cases hx : x = i
      · subst hx
        obtain ⟨acc1', hv', hslot', hint', htr', hframe', Δ, hwΔ, hΔc⟩ :=
          visitOne_at_simple now acc x s hslot hflag
        rw [hv'] at hvisit
        injection hvisit with hvv
        subst hvv
        have hb0 : SimpleCmd.isFinishedVal { s with periodicCount := s.periodicCount + 1 } = b := by
          simpa using hb 0
        have hflag1 : lookupI x acc1'.m.interrupt_state = some false := by
          rw [hint']; exact hflag
        have hb' : ∀ k, SimpleCmd.isFinishedVal
            { s with periodicCount := s.periodicCount + 1 + (k + 1) } = b := by
          intro k
          have hrw : s.periodicCount + 1 + (k + 1) = s.periodicCount + (k + 1 + 1) := by omega
          rw [hrw]
          exact hb (k + 1)
        obtain ⟨hslot2, htr2⟩ :=
          ih acc1' acc' { s with periodicCount := s.periodicCount + 1 } h hslot' hflag1 hb'
        constructor
        · rw [hslot2]
          simp [occCount, Nat.add_assoc]
        · rw [htr2, htr', hb0]
          cases b <;> simp [occCount] <;> omega
      · have hxi : ∀ hh : i = x, False := fun hh => hx hh.symm
        obtain ⟨hpi, hpa, hpt, hpm, hnn, hvac⟩ := visitOne_props now acc acc1 x hvisit
        have hslot1 : acc1.m.arenaGet i = some (some (.leaf (.simple s))) := by
          rw [hpa i hxi]; exact hslot
        have hflag1 : lookupI i acc1.m.interrupt_state = some false := by
          rw [hpi]; exact hflag
        obtain ⟨hslot2, htr2⟩ := ih acc1 acc' s h hslot1 hflag1 hb
        constructor
        · rw [hslot2]
          simp [occCount, hx]
        · rw [htr2, hpt i hxi]
          cases b <;> simp [occCount, hx]

/-- Processing the phase-4 visit list: with every other populated slot free
of the instrumented command's id, the number of `end(false)` events logged
under that id grows by one per occurrence of its index in the list when the
script reports finished, and not at all otherwise. -/
theorem processList_endcount (now : Nat) (i : CommandIndex) (b : Bool) :
    ∀ (L : List CommandIndex) (acc acc' : Phase4St) (s : SimpleCmd),
      processList now acc L = some acc' →
      acc.m.arenaGet i = some (some (.leaf (.simple s))) →
      lookupI i acc.m.interrupt_state = some false →
      (∀ k, SimpleCmd.isFinishedVal { s with periodicCount := s.periodicCount + (k + 1) } = b) →
      (∀ j c, j ≠ i → acc.m.arenaGet j = some (some c) → c.mentions s.id = false) →
      evCount (fun e => e == Event.endE s.id false) acc'.w =
        evCount (fun e => e == Event.endE s.id false) acc.w + (if b then occCount i L else 0) := by
  intro L
  induction L with
  | nil =>
    intro acc acc' s h hslot hflag hb hdisj
    simp only [processList] at h
    injection h with h
    subst h
    cases b <;> simp [occCount]
  | cons x xs ih =>
    intro acc acc' s h hslot hflag hb hdisj
    simp only [processList] at h
    split at h
    · cases h
    · rename_i acc1 hvisit
      by_cases hx : x = i
      · subst hx
        obtain ⟨acc1', hv', hslot', hint', htr', hframe', Δ, hwΔ, hΔc⟩ :=
          visitOne_at_simple now acc x s hslot hflag
        rw [hv'] at hvisit
        injection hvisit with hvv
        subst hvv
        have hb0 : SimpleCmd.isFinishedVal { s with periodicCount := s.periodicCount + 1 } = b := by
          simpa using hb 0
        have hflag1 : lookupI x acc1'.m.interrupt_state = some false := by
          rw [hint']; exact hflag
        have hb' : ∀ k, SimpleCmd.isFinishedVal
            { s with periodicCount := s.periodicCount + 1 + (k + 1) } = b := by
          intro k
          have hrw : s.periodicCount + 1 + (k + 1) = s.periodicCount + (k + 1 + 1) := by omega
          rw [hrw]
          exact hb (k + 1)
        have hdisj1 : ∀ j c, j ≠ x →
            acc1'.m.arenaGet j = some (some c) → c.mentions s.id = false := by
          intro j c hj hc
          rw [hframe' j hj] at hc
          exact hdisj j c hj hc
        have hcount := ih acc1' acc' { s with periodicCount := s.periodicCount + 1 } h hslot' hflag1 hb' hdisj1
        rw [hcount, hwΔ, evCount_append, hΔc, hb0]
        cases b <;> simp [occCount] <;> omega
      · have hxi : ∀ hh : i = x, False := fun hh => hx hh.symm
        obtain ⟨hpi, hpa, hpt, hpm, hnn, hvac⟩ := visitOne_props now acc acc1 x hvisit
        have hslot1 : acc1.m.arenaGet i = some (some (.leaf (.simple s))) := by
          rw [hpa i hxi]; exact hslot
        have hflag1 : lookupI i acc1.m.interrupt_state = some false := by
          rw [hpi]; exact hflag
        cases hcx : acc.m.arenaGet x with
        | none => exact absurd hcx hnn
        | some o =>
          cases o with
          | none =>
            have hacc : acc1 = acc := hvac hcx
            subst hacc
            have hcount := ih acc1 acc' s h hslot1 hflag1 hb hdisj
            rw [hcount]
            cases b <;> simp [occCount, hx]
          | some cx =>
            obtain ⟨⟨cx', hcx', hmx⟩, Δ, hwΔ, heΔ⟩ := hpm cx hcx
            have hcxm : cx.mentions s.id = false := hdisj x cx hx hcx
            have hdisj1 : ∀ j c, j ≠ i →
                acc1.m.arenaGet j = some (some c) → c.mentions s.id = false := by
              intro j c hj hc
              by_cases hjx : j = x
              · subst hjx
                rw [hcx'] at hc
                injection hc with hc
                injection hc with hc
                subst hc
                rw [hmx s.id]
                exact hcxm
              · have hjx' : ∀ hh : j = x, False := fun hh => hjx hh
                rw [hpa j hjx'] at hc
                exact hdisj j c hj hc
            have hΔ0 : evCount (fun e => e == Event.endE s.id false) Δ = 0 := by
              apply evCount_zero_of_none
              intro e he
              by_contra hpe
              have hpe' : (e == Event.endE s.id false) = true := by
                cases hq : (e == Event.endE s.id false)
                · exact absurd hq hpe
                · rfl
              have heq : e = Event.endE s.id false := by simpa [beq_iff_eq] using hpe'
              subst heq
              have := heΔ _ he
              simp [eventId] at this
              rw [this] at hcxm
              cases hcxm
            have hcount := ih acc1 acc' s h hslot1 hflag1 hb hdisj1
            rw [hcount, hwΔ, evCount_append, hΔ0]
            cases b <;> simp [occCount, hx]

theorem remove_command_arena_ne (m : CommandManager) (j i : CommandIndex) (hne : j ≠ i) :
    (m.remove_command j).arenaGet i = m.arenaGet i := by
  simp only [CommandManager.remove_command]
  split
  · cases i <;> rfl
  · cases j with
    | command a =>
      cases i with
      | command bIdx =>
        have hab : a ≠ bIdx := fun hh => hne (by rw [hh])
        simp [CommandManager.arenaGet, List.getElem?_set_ne hab]
      | defaultCommand bIdx => rfl
      | preservedCommand bIdx => rfl
    | defaultCommand a => cases i <;> rfl
    | preservedCommand a => cases i <;> rfl

theorem foldRemove_arena (tr : List CommandIndex) : ∀ (m : CommandManager) (i : CommandIndex),
    (∀ j ∈ tr, j ≠ i) →
    (tr.foldl CommandManager.remove_command m).arenaGet i = m.arenaGet i := by
  induction tr with
  | nil => intro m i _; rfl
  | cons j js ih =>
    intro m i hall
    simp only [List.foldl_cons]
    rw [ih _ i (fun k hk => hall k (by simp [hk]))]
    exact remove_command_arena_ne m j i (hall j (by simp))

/-! ### Supporting lemmas: admission (`inner_schedule`) -/

/-- Through the `Command` enum `cancel_incoming` is constantly false, so the
owner scan can never refuse. -/
theorem gatherCancel_true (m : CommandManager) :
    ∀ (req : List SUID) (acc : List CommandIndex), (gatherCancel m req acc).1 = true := by
  intro req
  induction req with
  | nil => intro acc; rfl
  | cons r rs ih =>
    intro acc
    cases h1 : lookupA r m.requirements with
    | none => simp only [gatherCancel, h1]; exact ih acc
    | some owner =>
      cases h2 : m.get_command owner with
      | none => simp only [gatherCancel, h1, h2]; exact ih acc
      | some cmd =>
        simp only [gatherCancel, h1, h2, Command.cancelIncoming, Bool.false_eq_true, if_false]
        exact ih _

theorem mem_insertSet_self (o : CommandIndex) (l : List CommandIndex) : o ∈ insertSet o l := by
  by_cases h : o ∈ l <;> simp [insertSet, h]

theorem mem_insertSet_of_mem (k o : CommandIndex) (l : List CommandIndex) (h : o ∈ l) :
    o ∈ insertSet k l := by
  by_cases hk : k ∈ l <;> simp [insertSet, hk, h]

theorem gatherCancel_mem_acc (m : CommandManager) :
    ∀ (req : List SUID) (acc : List CommandIndex) (o : CommandIndex), o ∈ acc →
      o ∈ (gatherCancel m req acc).2 := by
  intro req
  induction req with
  | nil => intro acc o h; exact h
  | cons r rs ih =>
    intro acc o h
    cases h1 : lookupA r m.requirements with
    | none => simp only [gatherCancel, h1]; exact ih acc o h
    | some owner =>
      cases h2 : m.get_command owner with
      | none => simp only [gatherCancel, h1, h2]; exact ih acc o h
      | some cmd =>
        simp only [gatherCancel, h1, h2, Command.cancelIncoming, Bool.false_eq_true, if_false]
        exact ih _ o (mem_insertSet_of_mem owner o acc h)

/-- Every live owner of a requested SUID ends up in the gathered
`to_cancel` set. -/
theorem gatherCancel_mem (m : CommandManager) :
    ∀ (req : List SUID) (acc : List CommandIndex) (r : SUID) (o : CommandIndex),
      r ∈ req → lookupA r m.requirements = some o → (m.get_command o).isSome = true →
      o ∈ (gatherCancel m req acc).2 := by
  intro req
  induction req with
  | nil => intro acc r o hr; cases hr
  | cons x xs ih =>
    intro acc r o hr ho hcmd
    rcases List.mem_cons.mp hr with h | h
    · subst h
      cases hgc : m.get_command o with
      | none => rw [hgc] at hcmd; cases hcmd
      | some cmd =>
        simp only [gatherCancel, ho, hgc, Command.cancelIncoming, Bool.false_eq_true, if_false]
        exact gatherCancel_mem_acc m xs _ o (mem_insertSet_self o acc)
    · cases h1 : lookupA x m.requirements with
      | none => simp only [gatherCancel, h1]; exact ih acc r o h ho hcmd
      | some owner =>
        cases h2 : m.get_command owner with
        | none => simp only [gatherCancel, h1, h2]; exact ih acc r o h ho hcmd
        | some cmd =>
          simp only [gatherCancel, h1, h2, Command.cancelIncoming, Bool.false_eq_true, if_false]
          exact ih _ r o h ho hcmd

theorem lookupI_fold_insert_true (tc : List CommandIndex) :
    ∀ (is0 : List (CommandIndex × Bool)) (o : CommandIndex),
      o ∈ tc ∨ lookupI o is0 = some true →
      lookupI o (tc.foldl (fun is o2 => insertI o2 true is) is0) = some true := by
  induction tc with
  | nil =>
    intro is0 o h
    rcases h with h | h
    · cases h
    · exact h
  | cons k ks ih =>
    intro is0 o h
    simp only [List.foldl_cons]
    apply ih
    by_cases hok : o = k
    · subst hok
      right
      exact lookupI_insertI_self o true is0
    · rcases h with h | h
      · rcases List.mem_cons.mp h with h2 | h2
        · exact absurd h2 hok
        · left; exact h2
      · right
        rw [lookupI_insertI_ne k o (fun hh => hok hh.symm) true is0]
        exact h

/-! ### Concrete claim evaluations -/

/-- Claim C1, counterexample: a never-finishing command owning subsystems 5
and 6 appears once per owned SUID in `requirements.values()`, so a single
tick runs its `periodic` twice — refuting "periodic(dt) is called at most
once per tick" / "every owner is visited exactly once". -/
theorem c1_cex_periodic_twice_per_tick :
    c1tick.map (fun r => evCount (fun e => e == Event.periodicE 1) r.2) = some 2 := rfl

/-- Claim C2: racing a never-finishing command (id 1) with `wait_for(100)`
and ticking past the deadline reaps the composite (ordinary slot 0 is
nulled) via `end(false)`, which `ParallelCommand::end` ignores — the losing
child receives zero `end` calls, not one `end(true)`. -/
theorem c2_losing_child_never_ended :
    c2t2.map (fun r =>
      (evCount (fun e => isEndEv e && (eventId e == 1)) r.2, r.1.commands.get? 0)) =
      some (0, some none) := rfl

/-- Claim C3, counterexample: admitting a command over subsystem 5 sets the
interrupt flag of the displaced default-command owner (`DefaultCommand 0`),
and once the subsystem falls back to the default the scheduler calls
`end(true)` on the default slot — refuting "no interrupt flag, no end
call" for default owners. -/
theorem c3_cex_default_flagged_and_ended :
    (c3t2.map (fun r => lookupI (.defaultCommand 0) r.1.interrupt_state) = some (some true)) ∧
    (c3t3.map (fun r => evCount (fun e => e == Event.endE 7 true) r.2) = some 1) :=
  ⟨rfl, rfl⟩

/-- Claim C4, counterexample: a command owning subsystems 5 and 6 that
reports finished on its first periodic receives `end(false)` twice in the
same tick (once per requirement entry), refuting "end is called exactly
once per scheduling episode". -/
theorem c4_cex_end_false_twice :
    c4tick.map (fun r => evCount (fun e => e == Event.endE 1 false) r.2) = some 2 := rfl

/-- Claim C5: the incumbent's object-level `cancel_incoming` is true, but
the `impl CommandTrait for Command` block never forwards `cancel_incoming`,
so through the enum it is constantly false; the submission therefore
displaces the incumbent (subsystem 5 passes to slot 1 and slot 0 is marked
interrupted) instead of being rejected. -/
theorem c5_refusal_never_consulted :
    Leaf.cancelIncoming (.simple (mkS 1 [5] none true)) = true ∧
    Command.cancelIncoming (mkC 1 [5] none true) = false ∧
    c5t2.map (fun r =>
      (lookupA 5 r.1.requirements, lookupI (.command 0) r.1.interrupt_state)) =
      some (some (.command 1), some true) :=
  ⟨rfl, rfl, rfl⟩

/-- Claim C6: after the default command of subsystem 5 finishes and is
reaped, the tick boundary has `requirements` still pointing at
`DefaultCommand 0` while its `interrupt_state` entry is gone, and the next
tick panics on the `interrupt_state[index]` lookup. -/
theorem c6_interrupt_state_dropped_for_present_default :
    (c6t1.map (fun r =>
      (lookupA 5 r.1.requirements, lookupI (.defaultCommand 0) r.1.interrupt_state)) =
      some (some (.defaultCommand 0), none)) ∧
    c6t2 = none :=
  ⟨rfl, rfl⟩

/-- Claim C7: the preserved command is admitted and initialised on the first
rising edge (tick 1), is not re-submitted while the condition stays true
(tick 2), but after a falling edge (tick 3) the next rising edge (tick 4)
re-admits it into `orphaned_commands` without an `interrupt_state` entry
and the tick panics instead of re-initialising it. -/
theorem c7_second_rising_edge_panics :
    (c7t1.map (fun r =>
      (evCount (fun e => e == Event.initE 3) r.2,
       evCount (fun e => e == Event.endE 3 false) r.2)) = some (1, 1)) ∧
    (c7t2.map (fun r => evCount (fun e => e == Event.initE 3) r.2) = some 1) ∧
    c7t3.isSome = true ∧
    c7t4 = none :=
  ⟨rfl, rfl, rfl, rfl⟩

/-- Claim C8: after one ordinary command is reaped, `commands = [none]`
while `preserved_commands = []`; draining a conditional scheduler then
finds the vacancy in the ordinary arena and writes
`preserved_commands[0]`, which is out of bounds — the tick panics. -/
theorem c8_preserved_write_out_of_bounds :
    (c8t1.map (fun r => (r.1.commands, r.1.preserved_commands)) = some ([none], [])) ∧
    c8t2 = none :=
  ⟨rfl, rfl⟩

/-- Claim C9, counterexample: with the base condition sampling true,
`or` still evaluates its right-hand predicate (id 1 appears in the
evaluation trace) because the source composes with the non-short-circuit
`|` operator. -/
theorem c9_cex_or_evaluates_right_operand :
    ((Cnd.base 0).eval envC9).1 = true ∧ ((Cnd.or (.base 0) 1).eval envC9).2 = [0, 1] :=
  ⟨rfl, rfl⟩

/-- Claim C9, amended: `and` is short-circuit (the new predicate is skipped
exactly when the left side is false) while `or` computes the boolean or but
always evaluates the new predicate. -/
theorem c9_and_or_semantics (c : Cnd) (f : Nat) (env : Nat → Bool) :
    ((Cnd.and c f).eval env).1 = ((c.eval env).1 && env f) ∧
    ((Cnd.or c f).eval env).1 = ((c.eval env).1 || env f) ∧
    ((Cnd.and c f).eval env).2 =
      (if (c.eval env).1 then (c.eval env).2 ++ [f] else (c.eval env).2) ∧
    ((Cnd.or c f).eval env).2 = (c.eval env).2 ++ [f] := by
  cases h : (c.eval env).1 <;> simp [Cnd.eval, h]

/-- Claim C10, counterexample: `X` (slot 0) is displaced by `Y` within the
same tick's queue drain, before any phase-4 visit; three ticks later `X`
has produced no events at all — neither `init` nor `end(true)` — while its
slot is still occupied, its interrupt flag still set, and it is absent from
the active list, so it is never visited or reaped. -/
theorem c10_cex_fully_displaced_never_ended :
    c10t3.map (fun r =>
      (evCount (fun e => eventId e == 1) r.2,
       (r.1.get_command (.command 0)).isSome,
       lookupI (.command 0) r.1.interrupt_state,
       occCount (.command 0) r.1.activeList)) = some (0, true, some true, 0) := rfl

/-- Claim C10, amended: when the displaced command stays reachable through a
subsystem the displacer did not take (here `X` keeps 6 while `Y` takes 5),
the same-tick phase-4 visit calls `end(true)` on it and reaps it without
ever calling `init` or `periodic`. -/
theorem c10_partial_displacement_end_without_init :
    c10pt1.map (fun r =>
      (evCount (fun e => e == Event.endE 1 true) r.2,
       evCount (fun e => e == Event.initE 1) r.2,
       evCount (fun e => e == Event.periodicE 1) r.2,
       r.1.commands.get? 0)) = some (1, 0, 0, some none) := rfl

/-- Claim C1, amended: a running (never-finishing, uninterrupted)
instrumented command is visited once per entry naming it in
`requirements.values() ++ orphaned`, so its `periodic` counter grows by
exactly the number of such entries in one `run_commands` — a command owning
`k` subsystems runs `periodic` `k` times per tick, and a command owning at
most one subsystem at most once. -/
theorem c1_periodic_once_per_entry (m : CommandManager) (now : Nat) (w : World)
    (i : CommandIndex) (s : SimpleCmd) (res : CommandManager × World)
    (hslot : m.arenaGet i = some (some (.leaf (.simple s))))
    (hfin : s.finishAfter = none)
    (hflag : lookupI i m.interrupt_state = some false)
    (hrun : m.run_commands now w = some res) :
    res.1.arenaGet i = some (some (.leaf (.simple
      { s with periodicCount := s.periodicCount + occCount i m.activeList }))) := by
  simp only [CommandManager.run_commands] at hrun
  split at hrun
  · cases hrun
  · rename_i acc hproc
    injection hrun with hrun
    subst hrun
    have hb : ∀ k, SimpleCmd.isFinishedVal
        { s with periodicCount := s.periodicCount + (k + 1) } = false := by
      intro k
      simp [SimpleCmd.isFinishedVal, hfin]
    obtain ⟨hslot2, htr2⟩ := processList_slot now i false m.activeList
      { m := m, w := w, tr := [] } acc s hproc hslot hflag hb
    have htr0 : occCount i acc.tr = 0 := by simpa [occCount] using htr2
    have hall : ∀ j ∈ acc.tr, j ≠ i := (occCount_eq_zero_iff i acc.tr).mp htr0
    show (acc.tr.foldl CommandManager.remove_command acc.m).arenaGet i = _
    rw [foldRemove_arena acc.tr acc.m i hall]
    exact hslot2

/-- Witness for the amended C1 theorem at the concrete two-subsystem state:
the counter ends at 2 after the single tick. -/
theorem c1_periodic_once_per_entry_witness :
    c1wRes.1.arenaGet (.command 0) = some (some (.leaf (.simple
      { c1wCmd with periodicCount := c1wCmd.periodicCount + occCount (CommandIndex.command 0) c1wSt.activeList }))) := by
  have h : c1wSt.run_commands 0 [] = some c1wRes := rfl
  exact c1_periodic_once_per_entry c1wSt 0 [] (.command 0) c1wCmd c1wRes rfl rfl rfl h

/-- Claim C4, amended: an instrumented command that is ripe (its script
already reports finished) and uninterrupted logs one `end(false)` per entry
naming it in `requirements.values() ++ orphaned` during `run_commands` —
exactly once when it owns a single subsystem or is orphaned, `k` times when
it owns `k` subsystems. -/
theorem c4_end_false_once_per_entry (m : CommandManager) (now : Nat) (w : World)
    (i : CommandIndex) (s : SimpleCmd) (n : Nat) (res : CommandManager × World)
    (hslot : m.arenaGet i = some (some (.leaf (.simple s))))
    (hfa : s.finishAfter = some n) (hripe : n ≤ s.periodicCount)
    (hflag : lookupI i m.interrupt_state = some false)
    (hdisj : ∀ j c, j ≠ i → m.arenaGet j = some (some c) → c.mentions s.id = false)
    (hrun : m.run_commands now w = some res) :
    evCount (fun e => e == Event.endE s.id false) res.2 =
      evCount (fun e => e == Event.endE s.id false) w + occCount i m.activeList := by
  simp only [CommandManager.run_commands] at hrun
  split at hrun
  · cases hrun
  · rename_i acc hproc
    injection hrun with hrun
    subst hrun
    have hb : ∀ k, SimpleCmd.isFinishedVal
        { s with periodicCount := s.periodicCount + (k + 1) } = true := by
      intro k
      simp only [SimpleCmd.isFinishedVal, hfa, decide_eq_true_eq]
      omega
    have hcount := processList_endcount now i true m.activeList
      { m := m, w := w, tr := [] } acc s hproc hslot hflag hb hdisj
    simpa using hcount

/-- Witness for the amended C4 theorem at the concrete two-subsystem state:
two `end(false)` events are logged in the single tick. -/
theorem c4_end_false_once_per_entry_witness :
    evCount (fun e => e == Event.endE c4wCmd.id false) c4wRes.2 =
      evCount (fun e => e == Event.endE c4wCmd.id false) [] +
        occCount (.command 0) c4wSt.activeList := by
  have hdisj : ∀ j c, j ≠ CommandIndex.command 0 →
      c4wSt.arenaGet j = some (some c) → c.mentions c4wCmd.id = false := by
    intro j c hj hc
    cases j with
    | command k =>
      cases k with
      | zero => exact absurd rfl hj
      | succ k => simp [c4wSt, CommandManager.arenaGet, CommandManager.new] at hc
    | defaultCommand k => simp [c4wSt, CommandManager.arenaGet, CommandManager.new] at hc
    | preservedCommand k => simp [c4wSt, CommandManager.arenaGet, CommandManager.new] at hc
  have h : c4wSt.run_commands 0 [] = some c4wRes := rfl
  exact c4_end_false_once_per_entry c4wSt 0 [] (.command 0) c4wCmd 0 c4wRes rfl rfl
    (by decide) rfl hdisj h

/-- Claim C3, amended: admission marks every live conflicting owner
interrupted, whatever its kind — in particular a default-command owner gets
`interrupt_state[o] = true`. -/
theorem c3_every_live_owner_flagged (m : CommandManager) (index : CommandIndex) (cmd : Command)
    (r : SUID) (o : CommandIndex)
    (hc : m.get_command index = some cmd)
    (hr : r ∈ cmd.getRequirements)
    (ho : lookupA r m.requirements = some o)
    (hoc : (m.get_command o).isSome = true)
    (hne : o ≠ index) :
    ∃ m', m.inner_schedule index = some m' ∧ lookupI o m'.interrupt_state = some true := by
  have hreq_ne : cmd.getRequirements.isEmpty = false := by
    cases hq : cmd.getRequirements with
    | nil => rw [hq] at hr; cases hr
    | cons a as => rfl
  have hsched : ∃ m', m.inner_schedule index = some m' ∧
      m'.interrupt_state = insertI index false
        ((gatherCancel m cmd.getRequirements []).2.foldl
          (fun is o2 => insertI o2 true is) m.interrupt_state) := by
    simp only [CommandManager.inner_schedule, hc, hreq_ne, Bool.false_eq_true, if_false,
      gatherCancel_true, if_true]
    exact ⟨_, rfl, rfl⟩
  obtain ⟨m', hm', hint⟩ := hsched
  refine ⟨m', hm', ?_⟩
  rw [hint, lookupI_insertI_ne index o (Ne.symm hne) false _]
  apply lookupI_fold_insert_true
  left
  exact gatherCancel_mem m cmd.getRequirements [] r o hr ho hoc

/-- Witness for the amended C3 theorem: the default command owning
subsystem 5 is flagged interrupted by the admission of the ordinary command
in slot 0. -/
theorem c3_every_live_owner_flagged_witness :
    ∃ m', c3wSt.inner_schedule (.command 0) = some m' ∧
      lookupI (.defaultCommand 0) m'.interrupt_state = some true :=
  c3_every_live_owner_flagged c3wSt (.command 0) (mkC 1 [5] none false) 5 (.defaultCommand 0)
    rfl (by decide) rfl rfl (by decide)

end FrcLib
